import Mathlib

/-!
Verification of the Helios Engine core specification against the repository's
code.  The example drivers under `src/examples` contain two self-contained
components (the `WeatherTool` of `custom_tool.rs` and the `ThinkingTracker`
of `streaming_chat.rs`) which are embedded here directly from the source.
The engine crate itself (agent loop, tool builder, forest, task plans,
planning tools) is not part of the repository snapshot, so those components
are modelled from the specification text (sections 4.2-4.5, 8) and each such
definition is marked `Modelled from the spec:` in its doc comment.
-/

/-- Shallow embedding of `serde_json::Value`: JSON values with numbers as
rationals (integers are rationals with denominator 1), objects as ordered
association lists. -/
inductive Json where
  | null : Json
  | bool (b : Bool) : Json
  | num (q : Rat) : Json
  | str (s : String) : Json
  | arr (elems : List Json) : Json
  | obj (fields : List (String × Json)) : Json

/-- `serde_json::Value::get(key)`: field lookup on an object, `none` on any
other kind of value. -/
def Json.get : Json → String → Option Json
  | .obj fields, key => fields.lookup key
  | _, _ => none

/-- `serde_json::Value::as_str`: the string payload when the value is a JSON
string, `none` otherwise. -/
def Json.asStr : Json → Option String
  | .str s => some s
  | _ => none

/-- `ToolResult { success, output, error }` as returned by every tool. -/
structure ToolResult where
  success : Bool
  output : String
  error : Option String
deriving DecidableEq

/-- `ToolResult::success(output)`. -/
def mkSuccessResult (out : String) : ToolResult :=
  { success := true, output := out, error := none }

/-- `ToolResult::error(msg)` (failure result with empty output). -/
def mkErrorResult (msg : String) : ToolResult :=
  { success := false, output := "", error := some msg }

/-- `WeatherTool::execute` from `src/examples/custom_tool.rs` lines 49-70:
reads `args["location"]` (default `"Unknown"`) and `args["unit"]`
(default `"fahrenheit"`), then formats
`"The weather in {} is sunny with a temperature of {}°{}"` and always
returns `Ok(ToolResult::success(..))`. -/
def weatherExecute (args : Json) : Except String ToolResult :=
  let location := (Option.bind (args.get "location") Json.asStr).getD "Unknown"
  let unit := (Option.bind (args.get "unit") Json.asStr).getD "fahrenheit"
  let temp := if unit = "celsius" then "22" else "72"
  Except.ok (mkSuccessResult
    ("The weather in " ++ location ++
      (" is sunny with a temperature of " ++ (temp ++ ("°" ++
        (if unit = "celsius" then "C" else "F"))))))

/-- The `<thinking>` open tag body scanned by `ThinkingTracker::process_chunk`
(`remaining.starts_with("thinking>")`, after the `<` was consumed). -/
def openTagChars : List Char := ['t', 'h', 'i', 'n', 'k', 'i', 'n', 'g', '>']

/-- The `</thinking>` close tag body (`remaining.starts_with("/thinking>")`). -/
def closeTagChars : List Char := ['/', 't', 'h', 'i', 'n', 'k', 'i', 'n', 'g', '>']

/-- The text `output.push_str("\n💭 [Thinking")` emitted on an open tag. -/
def thinkingHeaderChars : List Char := "\n💭 [Thinking".toList

/-- Rust `String::len` of a pushed character sequence: total UTF-8 byte
length (`thinking_buffer.len()` counts bytes, not characters). -/
def utf8Len (l : List Char) : Nat := (l.map Char.utf8Size).sum

/-- `ThinkingTracker` state from `src/examples/streaming_chat.rs` lines
91-104: `in_thinking` flag plus the `thinking_buffer` (kept as the pushed
characters; its Rust `len()` is `utf8Len`). -/
structure ThinkingTracker where
  in_thinking : Bool
  thinking_buffer : List Char
deriving DecidableEq

/-- `ThinkingTracker::new()`. -/
def ThinkingTracker.new : ThinkingTracker :=
  { in_thinking := false, thinking_buffer := [] }

/-- The character-consuming loop of `ThinkingTracker::process_chunk`
(`src/examples/streaming_chat.rs` lines 106-142), fuel-indexed so that it
reduces definitionally (the fuel is an upper bound on the number of
characters left; one character is consumed per step, tag matches skip 9
resp. 10 further characters exactly as the Rust `for _ in 0..9/0..10`
loops do).  Returns the produced output together with the final
`(in_thinking, thinking_buffer)` state. -/
def pcAux : Nat → Bool → List Char → List Char → (List Char × Bool × List Char)
  | 0, inTh, buf, _ => ([], inTh, buf)
  | _ + 1, inTh, buf, [] => ([], inTh, buf)
  | fuel + 1, inTh, buf, c :: rest =>
    if c = '<' ∧ openTagChars.isPrefixOf rest then
      let r := pcAux fuel true [] (rest.drop 9)
      (thinkingHeaderChars ++ r.1, r.2)
    else if c = '<' ∧ closeTagChars.isPrefixOf rest then
      let r := pcAux fuel false buf (rest.drop 10)
      (']' :: '\n' :: r.1, r.2)
    else if inTh then
      let buf' := buf ++ [c]
      let r := pcAux fuel inTh buf' rest
      ((if utf8Len buf' % 3 = 0 then ['.'] else []) ++ r.1, r.2)
    else
      let r := pcAux fuel inTh buf rest
      (c :: r.1, r.2)

/-- `ThinkingTracker::process_chunk(chunk)`: runs the character loop on the
chunk (the chunk's length is always enough fuel) and returns the output
string together with the updated tracker. -/
def ThinkingTracker.process_chunk (tr : ThinkingTracker) (chunk : String) :
    String × ThinkingTracker :=
  let r := pcAux chunk.toList.length tr.in_thinking tr.thinking_buffer chunk.toList
  (String.mk r.1, { in_thinking := r.2.1, thinking_buffer := r.2.2 })

/-- One run of pcAux with exactly enough fuel (the chunk's length), the
canonical form used by the `process_chunk` lemmas. -/
def pcRun (inTh : Bool) (buf l : List Char) : List Char × Bool × List Char :=
  pcAux l.length inTh buf l

/-- The '.' progress output emitted while inside a thinking region: one '.'
whenever the UTF-8 byte length of the buffer reaches a multiple of three
(this is `thinking_buffer.len() % 3 == 0` in the source, a byte count). -/
def dotsRender : List Char → List Char → List Char
  | _, [] => []
  | buf, c :: rest =>
    (if utf8Len (buf ++ [c]) % 3 = 0 then ['.'] else []) ++ dotsRender (buf ++ [c]) rest

/-- No character of the segment begins a tag occurrence: at every `'<'` in
the segment, neither `thinking>` nor `/thinking>` follows (looking past
the segment's end into `ctx`, the rest of the chunk).  Other `'<'`
characters are plain text.  This is exactly "every occurrence of
`<thinking>`/`</thinking>` in the chunk is one of the declared region
delimiters", phrased per segment. -/
def noTagB : List Char → List Char → Bool
  | [], _ => true
  | c :: rest, ctx =>
    (if c = '<' then
      !(openTagChars.isPrefixOf (rest ++ ctx)) &&
        !(closeTagChars.isPrefixOf (rest ++ ctx))
    else true) && noTagB rest ctx

/-- The region part of a chunk: closed thinking regions
`<thinking> t </thinking> s` in sequence, optionally ending in an
unmatched `<thinking> tl` region left open at the chunk's end. -/
def flatRegs : List (List Char × List Char) → Option (List Char) → List Char
  | [], none => []
  | [], some tl => '<' :: (openTagChars ++ tl)
  | (t, s) :: rest, tl =>
    '<' :: (openTagChars ++ (t ++ ('<' :: (closeTagChars ++ (s ++ flatRegs rest tl)))))

/-- The expected `process_chunk` output for the region part: each region
renders as the thinking header, its byte-count dots, and (when the region
is closed) the `]` marker followed by the echoed plain text; no tag text
and no region character is emitted. -/
def rendRegs : List (List Char × List Char) → Option (List Char) → List Char
  | [], none => []
  | [], some tl => thinkingHeaderChars ++ dotsRender [] tl
  | (t, s) :: rest, tl =>
    thinkingHeaderChars ++ (dotsRender [] t ++ (']' :: '\n' :: (s ++ rendRegs rest tl)))

/-- The final `(in_thinking, thinking_buffer)` after the region part:
inside the unmatched trailing region with its text as buffer when one
exists, after the last closed region otherwise, else the incoming state
(the buffer is cleared at each open tag). -/
def finalSt : List (List Char × List Char) → Option (List Char) → Bool × List Char →
    Bool × List Char
  | [], none, st => st
  | [], some tl, _ => (true, tl)
  | (t, _) :: rest, tl, _ => finalSt rest tl (false, t)

/-- Well-formedness of the region part: no segment (region body or plain
text) contains a character that begins a tag occurrence. -/
def goodRegsB : List (List Char × List Char) → Option (List Char) → Bool
  | [], none => true
  | [], some tl => noTagB tl []
  | (t, s) :: rest, tl =>
    noTagB t ('<' :: (closeTagChars ++ (s ++ flatRegs rest tl))) &&
      (noTagB s (flatRegs rest tl) && goodRegsB rest tl)

/-- Modelled from the spec: the supported parameter types of the
type-inferring `ToolBuilder` (`helios_engine`'s `ToolBuilder` is not part of
the repository snapshot); spec section 4.2: "each pᵢ ∈ {integer 32/64,
unsigned 32/64, float 32/64, boolean, text}". -/
inductive ParamTy where
  | i32 : ParamTy
  | i64 : ParamTy
  | u32 : ParamTy
  | u64 : ParamTy
  | f32 : ParamTy
  | f64 : ParamTy
  | boolean : ParamTy
  | text : ParamTy
deriving DecidableEq

/-- Modelled from the spec: the values produced by the `ToolBuilder`
argument extractors (machine integers as mathematical integers, floats as
rationals, booleans, text). -/
inductive PValue where
  | vi (n : Int) : PValue
  | vf (q : Rat) : PValue
  | vb (b : Bool) : PValue
  | vs (s : String) : PValue
deriving DecidableEq

/-- Modelled from the spec: the numeric/boolean/text extractors of the
`ToolBuilder` (spec section 4.2, step 2): coerce a JSON value to the
compile-time type of a parameter, `none` when the value is absent in kind
or out of range for the machine-integer types. -/
def coerceParam : ParamTy → Json → Option PValue
  | .i32, .num q =>
    if q.den = 1 ∧ -(2 ^ 31) ≤ q.num ∧ q.num < 2 ^ 31 then some (.vi q.num) else none
  | .i64, .num q =>
    if q.den = 1 ∧ -(2 ^ 63) ≤ q.num ∧ q.num < 2 ^ 63 then some (.vi q.num) else none
  | .u32, .num q =>
    if q.den = 1 ∧ 0 ≤ q.num ∧ q.num < 2 ^ 32 then some (.vi q.num) else none
  | .u64, .num q =>
    if q.den = 1 ∧ 0 ≤ q.num ∧ q.num < 2 ^ 64 then some (.vi q.num) else none
  | .f32, .num q => some (.vf q)
  | .f64, .num q => some (.vf q)
  | .boolean, .bool b => some (.vb b)
  | .text, .str s => some (.vs s)
  | _, _ => none

/-- Modelled from the spec: reading and coercing all declared parameters of
a built tool from the JSON `args`, in declared order; `none` as soon as one
parameter is absent or fails to coerce (spec section 4.2, steps 1-2). -/
def extractArgs : List (String × ParamTy) → Json → Option (List PValue)
  | [], _ => some []
  | p :: rest, args =>
    match Option.bind (args.get p.1) (coerceParam p.2) with
    | none => none
    | some v => (extractArgs rest args).map (fun vs => v :: vs)

/-- Modelled from the spec: the recursion of the built tool's `execute`
over the declared parameter list, accumulating extracted values (spec
section 4.2): on the first parameter that is absent or fails to coerce it
returns `ToolResult{success=false, error="invalid argument <name>"}`
without invoking `f`; once all parameters are extracted it invokes `f`
(modelled as already composed with the textual formatting of its result)
and returns `ToolResult{success=true, output}`. -/
def builtExecuteGo (args : Json) (f : List PValue → String) :
    List (String × ParamTy) → List PValue → ToolResult
  | [], acc => { success := true, output := f acc.reverse, error := none }
  | p :: rest, acc =>
    match Option.bind (args.get p.1) (coerceParam p.2) with
    | some v => builtExecuteGo args f rest (v :: acc)
    | none => { success := false, output := "", error := some ("invalid argument " ++ p.1) }

/-- Modelled from the spec: `execute` of a Tool built by
`ToolBuilder::parameters(dsl).ftool(f)` (spec section 4.2). -/
def builtExecute (params : List (String × ParamTy)) (f : List PValue → String)
    (args : Json) : ToolResult :=
  builtExecuteGo args f params []

/-- A tool call emitted by the LLM: `{id, name, arguments}` (spec section
3). -/
structure ToolCall where
  callId : String
  name : String
  arguments : Json

/-- A chat message: role, content, optional tool-call id (for tool-role
messages) and advertised tool calls (for assistant messages); spec
section 3. -/
structure ChatMessage where
  role : String
  content : String
  tool_call_id : Option String
  tool_calls : List ToolCall

/-- A user-role chat message. -/
def userMsg (content : String) : ChatMessage :=
  { role := "user", content := content, tool_call_id := none, tool_calls := [] }

/-- An assistant-role chat message advertising tool calls. -/
def assistantMsg (content : String) (calls : List ToolCall) : ChatMessage :=
  { role := "assistant", content := content, tool_call_id := none, tool_calls := calls }

/-- A tool-role chat message carrying a tool result for a tool-call id. -/
def toolMsg (callId : String) (content : String) : ChatMessage :=
  { role := "tool", content := content, tool_call_id := some callId, tool_calls := [] }

/-- A chat-completion response from the LLM capability: content plus tool
calls (spec section 6). -/
structure LLMResponse where
  content : String
  tool_calls : List ToolCall

/-- Modelled from the spec: dispatch of one tool call through the registry
(spec section 4.3, step 3d): unknown tools yield a
`"tool not found: NAME"` tool-role message, otherwise the tool's result
(output, or error text on failure) is appended as a tool-role message. -/
def dispatchCall (registry : List (String × (Json → ToolResult))) (tc : ToolCall) :
    ChatMessage :=
  match registry.lookup tc.name with
  | none => toolMsg tc.callId ("tool not found: " ++ tc.name)
  | some ex =>
    let r := ex tc.arguments
    toolMsg tc.callId (if r.success then r.output else r.error.getD r.output)

/-- Modelled from the spec: the reason/act loop of `AgentLoop.chat` (spec
section 4.3, `helios_engine`'s agent loop is not part of the repository
snapshot).  The LLM capability is an oracle from the session to a
response; the fuel counts the remaining iterations (`i < max_iterations`).
Returns the answer together with the number of LLM calls made.  On
exhaustion it returns the last assistant content if non-empty, else the
fixed message `"max iterations reached"` (step 4), making no further LLM
call. -/
def agentLoopAux (llm : List ChatMessage → LLMResponse)
    (registry : List (String × (Json → ToolResult))) :
    Nat → List ChatMessage → String → (String × Nat)
  | 0, _, last => (if last = "" then "max iterations reached" else last, 0)
  | fuel + 1, session, _ =>
    let resp := llm session
    let session' := session ++ [assistantMsg resp.content resp.tool_calls]
    if resp.tool_calls.isEmpty then
      (resp.content, 1)
    else
      let session'' := session' ++ resp.tool_calls.map (dispatchCall registry)
      let r := agentLoopAux llm registry fuel session'' resp.content
      (r.1, r.2 + 1)

/-- Modelled from the spec: `AgentLoop.chat(user_text)` (spec section 4.3):
append the user message, then run the loop for at most `max_iterations`
iterations. -/
def agentChat (llm : List ChatMessage → LLMResponse)
    (registry : List (String × (Json → ToolResult)))
    (maxIterations : Nat) (session : List ChatMessage) (userText : String) :
    String × Nat :=
  agentLoopAux llm registry maxIterations (session ++ [userMsg userText]) ""

/-- `TaskStatus ∈ {Pending, InProgress, Completed, Failed}` (spec
section 3). -/
inductive TStatus where
  | pending : TStatus
  | inProgress : TStatus
  | completed : TStatus
  | failed : TStatus
deriving DecidableEq

/-- A plan task: `{id, description, assigned_to, dependencies, status,
result}` (spec section 3). -/
structure PTask where
  id : String
  description : String
  assigned_to : String
  dependencies : List String
  status : TStatus
  result : Option String
deriving DecidableEq

/-- A `TaskPlan`: objective plus the tasks in creation order (the spec's
`tasks` mapping together with `creation_order` is represented as the
association-ordered list itself; ids are the keys). -/
structure TaskPlan where
  objective : String
  tasks : List PTask
deriving DecidableEq

/-- The ids of a task list, in creation order. -/
def idsOf (tasks : List PTask) : List String := tasks.map PTask.id

/-- `AgentMessage`: `{from, to (None ⇒ broadcast), content, timestamp}`
(spec section 3); `from`/`to` are rendered as `sender`/`recipient`. -/
structure AgentMessage where
  sender : String
  recipient : Option String
  content : String
  timestamp : Nat
deriving DecidableEq

/-- `SharedContext`: key/value data, the bounded recent-message ring
(capacity 100) and the current plan (spec section 3). -/
structure SharedContext where
  data : List (String × Json)
  recent_messages : List AgentMessage
  plan : Option TaskPlan

/-- Modelled from the spec: appending to the recent-message ring of
`SharedContext` (cap 100, overflow drops the oldest entry; spec
sections 3 and 5). -/
def pushRecent (ctx : SharedContext) (m : AgentMessage) : SharedContext :=
  let r := ctx.recent_messages ++ [m]
  { ctx with recent_messages := if r.length > 100 then r.drop (r.length - 100) else r }

/-- A `Forest`: named agents (each reduced to its chat session, the part
message delivery touches), the message-bus queue and the shared context
(spec sections 3 and 4.4). -/
structure Forest where
  agents : List (String × List ChatMessage)
  queue : List AgentMessage
  context : SharedContext

/-- Modelled from the spec: `Forest::send_message(from, to, content)`
(spec section 4.4, `helios_engine::forest` is not part of the repository
snapshot): enqueues an `AgentMessage` and appends it to
`SharedContext.recent_messages`. -/
def sendMessage (f : Forest) (sender : String) (recipient : Option String)
    (content : String) (ts : Nat) : Forest :=
  let m : AgentMessage :=
    { sender := sender, recipient := recipient, content := content, timestamp := ts }
  { f with queue := f.queue ++ [m], context := pushRecent f.context m }

/-- The user-role message a recipient's session receives for a delivered
`AgentMessage`: content annotated `[Message from <sender>]` (spec
section 4.4). -/
def incomingMsg (m : AgentMessage) : ChatMessage :=
  userMsg ("[Message from " ++ m.sender ++ "] " ++ m.content)

/-- Modelled from the spec: delivery of one drained message (spec section
4.4): a direct message is appended to the recipient's session; a broadcast
(`to = None`) is delivered to every agent except the sender. -/
def deliverOne (agents : List (String × List ChatMessage)) (m : AgentMessage) :
    List (String × List ChatMessage) :=
  match m.recipient with
  | some r => agents.map (fun p => if p.1 = r then (p.1, p.2 ++ [incomingMsg m]) else p)
  | none => agents.map (fun p => if p.1 = m.sender then p else (p.1, p.2 ++ [incomingMsg m]))

/-- Modelled from the spec: `Forest::process_messages()` (spec section
4.4): drains the queue FIFO, delivering each message. -/
def processMessages (f : Forest) : Forest :=
  { f with agents := f.queue.foldl deliverOne f.agents, queue := [] }

/-- Whether every dependency of `t` is already in `done` (the emitted /
completed id set); the dependency-ready test of spec sections 3 and 4.4. -/
def readyB (done : List String) (t : PTask) : Bool :=
  t.dependencies.all (fun d => done.contains d)

/-- Modelled from the spec: the dependency-ordered walk underlying
`TaskPlan::tasks_in_order` (spec section 3: "a topological order
consistent with dependencies; ties broken by creation_order", design note
section 9: dependency-ready selection per step).  Fuel-indexed Kahn
selection: repeatedly emit the first (creation order) remaining task whose
dependencies are all emitted; `none` when tasks remain but none is ready
(a dependency cycle). -/
def kahnAux : Nat → List String → List PTask → Option (List PTask)
  | _, _, [] => some []
  | 0, _, _ :: _ => none
  | fuel + 1, done, t0 :: rem =>
    Option.bind ((t0 :: rem).find? (readyB done)) (fun t =>
      Option.map (fun ord => t :: ord) (kahnAux fuel (t.id :: done) ((t0 :: rem).erase t)))

/-- Modelled from the spec: `TaskPlan::tasks_in_order` on a task list
(spec section 3). -/
def tasksInOrder (tasks : List PTask) : Option (List PTask) :=
  kahnAux tasks.length [] tasks

/-- An order emitted with all dependencies already in `done` at each step:
each task's dependencies lie in `done` extended by the ids of the tasks
emitted before it.  `TopoFrom [] ord` states that `ord` is a topological
ordering (no task before any of its dependencies). -/
inductive TopoFrom : List String → List PTask → Prop
  | nil (done : List String) : TopoFrom done []
  | cons (done : List String) (t : PTask) (rest : List PTask)
      (hdeps : ∀ d ∈ t.dependencies, d ∈ done)
      (htail : TopoFrom (t.id :: done) rest) : TopoFrom done (t :: rest)

/-- The dependency graph of `tasks` admits a topological ordering (its
negation is the spec's "dependency cycle"). -/
def CycleFree (tasks : List PTask) : Prop :=
  ∃ ord : List PTask, ord.Perm tasks ∧ TopoFrom [] ord

/-- `u` appears strictly before `t` in `l`. -/
def Before (l : List PTask) (u t : PTask) : Prop :=
  ∃ l₁ l₂ l₃, l = l₁ ++ u :: l₂ ++ t :: l₃

/-- Modelled from the spec: the `create_plan` planning tool (spec section
4.5, `helios_engine`'s planning tools are not part of the repository
snapshot): validates that task ids are unique, every `assigned_to` is in
the available agent set, every dependency references a declared id, and
the dependency graph is acyclic; on success installs the plan into
`SharedContext`, on failure returns `ToolResult{success=false}` with an
`InvalidInput` error and leaves the context unchanged. -/
def createPlan (avail : List String) (objective : String) (tasks : List PTask)
    (ctx : SharedContext) : ToolResult × SharedContext :=
  if ¬ (idsOf tasks).Nodup then
    (mkErrorResult "InvalidInput: duplicate task id", ctx)
  else if ¬ ∀ t ∈ tasks, t.assigned_to ∈ avail then
    (mkErrorResult "InvalidInput: unknown agent id", ctx)
  else if ¬ ∀ t ∈ tasks, ∀ d ∈ t.dependencies, d ∈ idsOf tasks then
    (mkErrorResult "InvalidInput: unknown dependency id", ctx)
  else
    match tasksInOrder tasks with
    | none => (mkErrorResult "InvalidInput: dependency cycle detected", ctx)
    | some _ =>
      (mkSuccessResult "Plan created",
        { ctx with plan := some { objective := objective, tasks := tasks } })

/-- The first entry with the given id (the spec's `tasks` mapping lookup). -/
def taskById (tasks : List PTask) (tid : String) : Option PTask :=
  tasks.find? (fun t => t.id == tid)

/-- The looked-up task's status. -/
def statusById (tasks : List PTask) (tid : String) : Option TStatus :=
  (taskById tasks tid).map PTask.status

/-- The looked-up task's result text. -/
def resultById (tasks : List PTask) (tid : String) : Option (Option String) :=
  (taskById tasks tid).map PTask.result

/-- Modelled from the spec: the `update_task_memory(task_id, result_text)`
planning tool (spec section 4.5): sets the named task's result and, if its
status is `InProgress`, transitions it to `Completed`; writing to a
non-existent task or to an already-terminal (`Completed`/`Failed`) task
returns a failure `ToolResult` and leaves the plan unchanged. -/
def updateTaskMemory (plan : TaskPlan) (taskId resultText : String) :
    ToolResult × TaskPlan :=
  match taskById plan.tasks taskId with
  | none => (mkErrorResult "NotFound: unknown task id", plan)
  | some t =>
    if t.status = TStatus.completed ∨ t.status = TStatus.failed then
      (mkErrorResult "Conflict: task already terminal", plan)
    else if t.status = TStatus.inProgress then
      (mkSuccessResult "Task updated",
        { plan with tasks := plan.tasks.map (fun u =>
            if u.id == taskId then
              { u with status := TStatus.completed, result := some resultText }
            else u) })
    else
      (mkSuccessResult "Task updated",
        { plan with tasks := plan.tasks.map (fun u =>
            if u.id == taskId then { u with result := some resultText } else u) })

/-- Whether every dependency of `t` names a `Completed` task (the
selection condition of spec section 4.4 step 4). -/
def depsDone (tasks : List PTask) (t : PTask) : Bool :=
  t.dependencies.all (fun d =>
    tasks.any (fun u => u.id == d && u.status == TStatus.completed))

/-- The first Pending task (creation order) whose dependencies are all
Completed (spec section 4.4 step 4: tie-break by creation order). -/
def pickReady (tasks : List PTask) : Option PTask :=
  tasks.find? (fun t => t.status == TStatus.pending && depsDone tasks t)

/-- Status/result update of the task with the given id. -/
def setTask (tasks : List PTask) (tid : String) (st : TStatus)
    (res : Option String) : List PTask :=
  tasks.map (fun u => if u.id == tid then { u with status := st, result := res } else u)

/-- Marking every still-Pending task Failed with the "blocked" reason
(spec section 4.4 step 4, final bullet). -/
def markBlocked (tasks : List PTask) : List PTask :=
  tasks.map (fun u =>
    if u.status == TStatus.pending then
      { u with status := TStatus.failed, result := some "blocked" }
    else u)

/-- Modelled from the spec: the collaborative plan-execution loop of
`Forest::execute_collaborative_task` (spec section 4.4 step 4,
`helios_engine::forest` is not part of the repository snapshot).  The
assigned agents' loops are abstracted as an `outcome` oracle from the task
id to the agent's reply or error; the returned list records the ids of the
tasks whose assigned agent was invoked.  Each round runs the first ready
Pending task, storing its result as `Completed` on success and `Failed` on
error; when no Pending task is ready, all remaining Pending tasks are
marked Failed with the "blocked" reason. -/
def runPlanAux (outcome : String → Except String String) :
    Nat → List PTask → List String → (List PTask × List String)
  | 0, tasks, inv => (markBlocked tasks, inv)
  | fuel + 1, tasks, inv =>
    match pickReady tasks with
    | none => (markBlocked tasks, inv)
    | some t =>
      match outcome t.id with
      | .ok res =>
        runPlanAux outcome fuel (setTask tasks t.id TStatus.completed (some res))
          (inv ++ [t.id])
      | .error err =>
        runPlanAux outcome fuel (setTask tasks t.id TStatus.failed (some err))
          (inv ++ [t.id])

/-- Modelled from the spec: executing an installed plan's tasks (spec
section 4.4 step 4); the fuel `tasks.length` suffices since every round
runs one Pending task. -/
def executePlan (outcome : String → Except String String) (tasks : List PTask) :
    List PTask × List String :=
  runPlanAux outcome tasks.length tasks []

/-- `uid` transitively depends on `fid` in the plan's task list: some task
with id `uid` has `fid` among its dependencies, or has a dependency that
itself transitively depends on `fid`. -/
inductive DepChain (tasks : List PTask) : String → String → Prop
  | direct (u : PTask) (d : String) (hu : u ∈ tasks) (hd : d ∈ u.dependencies) :
      DepChain tasks u.id d
  | step (u : PTask) (d : String) (fid : String) (hu : u ∈ tasks)
      (hd : d ∈ u.dependencies) (hc : DepChain tasks d fid) :
      DepChain tasks u.id fid

/-! ## Theorems -/

theorem agentLoopAux_calls_le (llm : List ChatMessage → LLMResponse)
    (registry : List (String × (Json → ToolResult))) :
    ∀ (fuel : Nat) (session : List ChatMessage) (last : String),
      (agentLoopAux llm registry fuel session last).2 ≤ fuel := by
  intro fuel
  induction fuel with
  | zero => intro session last; simp [agentLoopAux]
  | succ n ih =>
    intro session last
    by_cases h : (llm session).tool_calls.isEmpty
    · simp [agentLoopAux, h]
    · simp only [agentLoopAux, h, if_false, Bool.false_eq_true]
      exact Nat.succ_le_succ (ih _ _)

/-- Claim C1: one invocation of the agent loop's `chat(user_text)` with
iteration cap `max_iterations` makes at most `max_iterations + 1` LLM
calls (the loop runs while `i < max_iterations`, so in this model even at
most `max_iterations` calls are made, and the loop always terminates). -/
theorem claim_C1_agentloop_llm_call_bound (llm : List ChatMessage → LLMResponse)
    (registry : List (String × (Json → ToolResult))) (maxIterations : Nat)
    (session : List ChatMessage) (userText : String) :
    (agentChat llm registry maxIterations session userText).2 ≤ maxIterations + 1 :=
  Nat.le_trans (agentLoopAux_calls_le llm registry maxIterations _ _) (Nat.le_succ _)

theorem builtExecuteGo_ok (args : Json) (f : List PValue → String) :
    ∀ (params : List (String × ParamTy)) (acc : List PValue) (vs : List PValue),
      extractArgs params args = some vs →
      builtExecuteGo args f params acc =
        { success := true, output := f (acc.reverse ++ vs), error := none } := by
  intro params
  induction params with
  | nil =>
    intro acc vs h
    simp only [extractArgs, Option.some.injEq] at h
    subst h
    simp [builtExecuteGo]
  | cons p rest ih =>
    intro acc vs h
    cases hb : Option.bind (args.get p.1) (coerceParam p.2) with
    | none => exfalso; simp [extractArgs, hb] at h
    | some v =>
      cases hrest : extractArgs rest args with
      | none => exfalso; simp [extractArgs, hb, hrest] at h
      | some vs'' =>
        have hvs : vs = v :: vs'' := by
          simp [extractArgs, hb, hrest] at h
          exact h.symm
        subst hvs
        simp only [builtExecuteGo, hb]
        rw [ih (v :: acc) vs'' hrest]
        simp

/-- Claim C2: for a `ToolBuilder`-built tool, on any JSON `args` whose
values all conform to the declared parameter types, `execute(args)`
returns `ToolResult{success=true}` whose output is the textual formatting
of `f` applied to the arguments extracted from `args` in declared order. -/
theorem claim_C2_toolbuilder_roundtrip (params : List (String × ParamTy))
    (f : List PValue → String) (args : Json) (vs : List PValue)
    (h : extractArgs params args = some vs) :
    builtExecute params f args = { success := true, output := f vs, error := none } := by
  simpa [builtExecute] using builtExecuteGo_ok args f params [] vs h

theorem claim_C2_witness :
    extractArgs [("name", ParamTy.text), ("formal", ParamTy.boolean)]
        (Json.obj [("name", Json.str "Bob"), ("formal", Json.bool false)]) =
      some [PValue.vs "Bob", PValue.vb false] ∧
    builtExecute [("name", ParamTy.text), ("formal", ParamTy.boolean)]
        (fun vs => match vs with
          | [PValue.vs nm, PValue.vb b] =>
            if b then "Good day, " ++ nm else "Hey " ++ nm
          | _ => "")
        (Json.obj [("name", Json.str "Bob"), ("formal", Json.bool false)]) =
      { success := true, output := "Hey Bob", error := none } :=
  ⟨by decide, claim_C2_toolbuilder_roundtrip _ _ _ [PValue.vs "Bob", PValue.vb false]
    (by decide)⟩

theorem builtExecuteGo_err (args : Json) (f : List PValue → String)
    (nm : String) (ty : ParamTy) (post : List (String × ParamTy)) :
    ∀ (pre : List (String × ParamTy)) (acc : List PValue),
      (∀ p ∈ pre, (Option.bind (args.get p.1) (coerceParam p.2)).isSome) →
      Option.bind (args.get nm) (coerceParam ty) = none →
      builtExecuteGo args f (pre ++ (nm, ty) :: post) acc =
        { success := false, output := "", error := some ("invalid argument " ++ nm) } := by
  intro pre
  induction pre with
  | nil =>
    intro acc _ hbad
    simp [builtExecuteGo, hbad]
  | cons p rest ih =>
    intro acc hok hbad
    obtain ⟨v, hv⟩ := Option.isSome_iff_exists.mp (hok p (List.mem_cons_self p rest))
    simp only [List.cons_append, builtExecuteGo, hv]
    exact ih (v :: acc) (fun q hq => hok q (List.mem_cons_of_mem p hq)) hbad

/-- Claim C8: for a `ToolBuilder`-built tool, if some declared parameter is
missing from `args` or fails to coerce to its declared type (and all
earlier declared parameters coerce), `execute(args)` returns
`ToolResult{success=false}` with error `"invalid argument <name>"` naming
that parameter, and the wrapped function is not invoked (the result is the
same for every wrapped function). -/
theorem claim_C8_invalid_argument (args : Json)
    (pre post : List (String × ParamTy)) (nm : String) (ty : ParamTy)
    (hok : ∀ p ∈ pre, (Option.bind (args.get p.1) (coerceParam p.2)).isSome)
    (hbad : Option.bind (args.get nm) (coerceParam ty) = none) :
    ∀ f : List PValue → String,
      builtExecute (pre ++ (nm, ty) :: post) f args =
        { success := false, output := "", error := some ("invalid argument " ++ nm) } :=
  fun f => builtExecuteGo_err args f nm ty post pre [] hok hbad

theorem claim_C8_witness :
    (∀ p ∈ ([("x", ParamTy.i32)] : List (String × ParamTy)),
      (Option.bind ((Json.obj [("x", Json.num 12)]).get p.1) (coerceParam p.2)).isSome) ∧
    Option.bind ((Json.obj [("x", Json.num 12)]).get "y") (coerceParam ParamTy.i32) = none ∧
    builtExecute [("x", ParamTy.i32), ("y", ParamTy.i32)] (fun _ => "never")
        (Json.obj [("x", Json.num 12)]) =
      { success := false, output := "", error := some "invalid argument y" } :=
  ⟨by decide, by decide,
    claim_C8_invalid_argument (Json.obj [("x", Json.num 12)])
      [("x", ParamTy.i32)] [] "y" ParamTy.i32 (by decide) (by decide) (fun _ => "never")⟩

/-- Claim C9: `WeatherTool::execute` is total and never reports failure:
for every JSON `args` it returns `Ok` with `success = true`; the reported
location is `"Unknown"` when `args["location"]` is absent or not a string
and the given string otherwise; the reported temperature is `22°C` exactly
when `args["unit"]` is the string `"celsius"` and `72°F` when it is absent
or any other string. -/
theorem claim_C9_weather_total (args : Json) :
    ∃ L T : String,
      weatherExecute args =
        Except.ok { success := true,
                    output :=
                      "The weather in " ++ L ++
                        (" is sunny with a temperature of " ++ T),
                    error := none } ∧
      (Option.bind (args.get "location") Json.asStr = none → L = "Unknown") ∧
      (∀ s, Option.bind (args.get "location") Json.asStr = some s → L = s) ∧
      (Option.bind (args.get "unit") Json.asStr = some "celsius" → T = "22°C") ∧
      (Option.bind (args.get "unit") Json.asStr = none → T = "72°F") ∧
      (∀ u, Option.bind (args.get "unit") Json.asStr = some u → u ≠ "celsius" →
        T = "72°F") := by
  refine ⟨(Option.bind (args.get "location") Json.asStr).getD "Unknown",
    if (Option.bind (args.get "unit") Json.asStr).getD "fahrenheit" = "celsius"
      then "22°C" else "72°F", ?_, ?_, ?_, ?_, ?_, ?_⟩
  · by_cases hc : (Option.bind (args.get "unit") Json.asStr).getD "fahrenheit" = "celsius"
    · simp only [weatherExecute, hc, if_true, if_pos]
      rw [show ("22" : String) ++ ("°" ++ "C") = "22°C" from by decide]
      rfl
    · simp only [weatherExecute, hc, if_false, if_neg]
      rw [show ("72" : String) ++ ("°" ++ "F") = "72°F" from by decide]
      rfl
  · intro h; simp [h]
  · intro s h; simp [h]
  · intro h; simp [h]
  · intro h; simp [h]
  · intro u h hne; simp [h, hne]

theorem taskById_map (g : PTask → PTask) (hg : ∀ u, (g u).id = u.id) :
    ∀ (tasks : List PTask) (tid : String),
      taskById (tasks.map g) tid = (taskById tasks tid).map g := by
  intro tasks tid
  induction tasks with
  | nil => rfl
  | cons u rest ih =>
    simp only [taskById, List.map_cons, List.find?_cons] at *
    rw [hg u]
    cases h : (u.id == tid) <;> simp [h, ih]

theorem taskById_id (tasks : List PTask) (tid : String) (u : PTask)
    (h : taskById tasks tid = some u) : u.id = tid := by
  have := List.find?_some h
  exact beq_iff_eq.mp this

theorem taskById_mem (tasks : List PTask) (tid : String) (u : PTask)
    (h : taskById tasks tid = some u) : u ∈ tasks :=
  List.mem_of_find?_eq_some h

theorem statusById_map (tasks : List PTask) (tid2 : String)
    (g : PTask → PTask) (hg : ∀ u, (g u).id = u.id) :
    statusById (tasks.map g) tid2 = (taskById tasks tid2).map (fun u => (g u).status) := by
  rw [statusById, taskById_map g hg tasks tid2, Option.map_map]
  rfl

theorem resultById_map (tasks : List PTask) (tid2 : String)
    (g : PTask → PTask) (hg : ∀ u, (g u).id = u.id) :
    resultById (tasks.map g) tid2 = (taskById tasks tid2).map (fun u => (g u).result) := by
  rw [resultById, taskById_map g hg tasks tid2, Option.map_map]
  rfl

/-- Claim C7: `update_task_memory(task_id, result_text)` on the current
plan: for an existing `InProgress` task it succeeds, sets the result and
transitions the task to `Completed`; for a missing task or an
already-terminal task it returns a failure `ToolResult` and leaves the
plan unchanged; and the only status change it ever makes is
`InProgress → Completed` (every other task's status is untouched). -/
theorem claim_C7_update_task_memory (plan : TaskPlan) (tid txt : String) :
    (∀ t, taskById plan.tasks tid = some t → t.status = TStatus.inProgress →
      (updateTaskMemory plan tid txt).1.success = true ∧
      statusById (updateTaskMemory plan tid txt).2.tasks tid = some TStatus.completed ∧
      resultById (updateTaskMemory plan tid txt).2.tasks tid = some (some txt)) ∧
    (taskById plan.tasks tid = none →
      (updateTaskMemory plan tid txt).1.success = false ∧
      (updateTaskMemory plan tid txt).2 = plan) ∧
    (∀ t, taskById plan.tasks tid = some t →
      (t.status = TStatus.completed ∨ t.status = TStatus.failed) →
      (updateTaskMemory plan tid txt).1.success = false ∧
      (updateTaskMemory plan tid txt).2 = plan) ∧
    (∀ tid2, statusById (updateTaskMemory plan tid txt).2.tasks tid2 =
        statusById plan.tasks tid2 ∨
      (statusById plan.tasks tid2 = some TStatus.inProgress ∧
        statusById (updateTaskMemory plan tid txt).2.tasks tid2 =
          some TStatus.completed)) := by
  refine ⟨?_, ?_, ?_, ?_⟩
  · intro t hfind hst
    have hg : ∀ u : PTask, ((fun u : PTask => if u.id == tid then
        { u with status := TStatus.completed, result := some txt } else u) u).id = u.id := by
      intro u; dsimp only; split <;> rfl
    have e : updateTaskMemory plan tid txt =
        (mkSuccessResult "Task updated",
          { plan with tasks := plan.tasks.map (fun u => if u.id == tid then
              { u with status := TStatus.completed, result := some txt } else u) }) := by
      simp [updateTaskMemory, hfind, hst]
    rw [e]
    refine ⟨rfl, ?_, ?_⟩
    · rw [statusById_map plan.tasks tid _ hg, hfind]
      simp [taskById_id plan.tasks tid t hfind]
    · rw [resultById_map plan.tasks tid _ hg, hfind]
      simp [taskById_id plan.tasks tid t hfind]
  · intro hnone
    simp [updateTaskMemory, hnone, mkErrorResult]
  · intro t hfind hterm
    simp [updateTaskMemory, hfind, hterm, mkErrorResult]
  · intro tid2
    cases hfind : taskById plan.tasks tid with
    | none => left; simp [updateTaskMemory, hfind]
    | some t =>
      by_cases hterm : t.status = TStatus.completed ∨ t.status = TStatus.failed
      · left; simp [updateTaskMemory, hfind, hterm]
      · by_cases hst : t.status = TStatus.inProgress
        · have hg : ∀ u : PTask, ((fun u : PTask => if u.id == tid then
              { u with status := TStatus.completed, result := some txt } else u) u).id =
                u.id := by
            intro u; dsimp only; split <;> rfl
          have e : updateTaskMemory plan tid txt =
              (mkSuccessResult "Task updated",
                { plan with tasks := plan.tasks.map (fun u => if u.id == tid then
                    { u with status := TStatus.completed, result := some txt } else u) }) := by
            simp [updateTaskMemory, hfind, hst]
          rw [e]
          by_cases h2 : tid2 = tid
          · subst h2
            right
            constructor
            · simp [statusById, hfind, hst]
            · rw [statusById_map plan.tasks tid2 _ hg, hfind]
              simp [taskById_id plan.tasks tid2 t hfind]
          · left
            rw [statusById_map plan.tasks tid2 _ hg]
            cases hfind2 : taskById plan.tasks tid2 with
            | none => simp [statusById, hfind2]
            | some w =>
              have hw : ¬ w.id = tid := by
                rw [taskById_id plan.tasks tid2 w hfind2]; exact h2
              simp [statusById, hfind2, hw]
        · have hg : ∀ u : PTask, ((fun u : PTask => if u.id == tid then
              { u with result := some txt } else u) u).id = u.id := by
            intro u; dsimp only; split <;> rfl
          have e : updateTaskMemory plan tid txt =
              (mkSuccessResult "Task updated",
                { plan with tasks := plan.tasks.map (fun u => if u.id == tid then
                    { u with result := some txt } else u) }) := by
            simp [updateTaskMemory, hfind, hterm, hst]
          rw [e]
          left
          rw [statusById_map plan.tasks tid2 _ hg]
          cases hfind2 : taskById plan.tasks tid2 with
          | none => simp [statusById, hfind2]
          | some w =>
            simp only [statusById, hfind2, Option.map_some']
            split <;> rfl

theorem claim_C7_witness :
    taskById ({ objective := "o", tasks := [] } : TaskPlan).tasks "t9" = none ∧
    (updateTaskMemory { objective := "o", tasks := [] } "t9" "r").1.success = false ∧
    (updateTaskMemory { objective := "o", tasks := [] } "t9" "r").2 =
      { objective := "o", tasks := [] } :=
  ⟨by decide,
    (claim_C7_update_task_memory { objective := "o", tasks := [] } "t9" "r").2.1
      (by decide)⟩

/-- Claim C5: a broadcast `send_message(from=A, to=None, content)` followed
by `process_messages()` (on an otherwise-drained bus) appends to every
agent other than `A` exactly one user-role message carrying the content
annotated `[Message from A]`, and leaves `A`'s own session unchanged. -/
theorem claim_C5_broadcast_delivery (f : Forest) (sender content : String) (ts : Nat)
    (hq : f.queue = []) :
    (processMessages (sendMessage f sender none content ts)).agents.length =
      f.agents.length ∧
    ∀ (i : Nat) (p : String × List ChatMessage), f.agents[i]? = some p →
      (p.1 = sender →
        (processMessages (sendMessage f sender none content ts)).agents[i]? = some p) ∧
      (p.1 ≠ sender →
        (processMessages (sendMessage f sender none content ts)).agents[i]? =
          some (p.1, p.2 ++
            [userMsg ("[Message from " ++ sender ++ "] " ++ content)])) := by
  have e : (processMessages (sendMessage f sender none content ts)).agents =
      f.agents.map (fun p => if p.1 = sender then p
        else (p.1, p.2 ++ [userMsg ("[Message from " ++ sender ++ "] " ++ content)])) := by
    simp [processMessages, sendMessage, hq, deliverOne, incomingMsg]
  rw [e]
  constructor
  · exact List.length_map _ _
  · intro i p hp
    constructor
    · intro hps
      rw [List.getElem?_map, hp]
      simp [hps]
    · intro hps
      rw [List.getElem?_map, hp]
      simp [hps]

theorem claim_C5_witness :
    (⟨[("alice", []), ("bob", []), ("carol", [])], [],
      ⟨[], [], none⟩⟩ : Forest).queue = [] ∧
    (processMessages (sendMessage
        ⟨[("alice", []), ("bob", []), ("carol", [])], [], ⟨[], [], none⟩⟩
        "alice" none "hi all" 0)).agents[0]? = some ("alice", []) ∧
    (processMessages (sendMessage
        ⟨[("alice", []), ("bob", []), ("carol", [])], [], ⟨[], [], none⟩⟩
        "alice" none "hi all" 0)).agents[1]? =
      some ("bob", [userMsg "[Message from alice] hi all"]) ∧
    (processMessages (sendMessage
        ⟨[("alice", []), ("bob", []), ("carol", [])], [], ⟨[], [], none⟩⟩
        "alice" none "hi all" 0)).agents[2]? =
      some ("carol", [userMsg "[Message from alice] hi all"]) := by
  refine ⟨rfl, ?_, ?_, ?_⟩
  · exact ((claim_C5_broadcast_delivery
      ⟨[("alice", []), ("bob", []), ("carol", [])], [], ⟨[], [], none⟩⟩
      "alice" "hi all" 0 rfl).2 0 ("alice", []) rfl).1 rfl
  · have h := ((claim_C5_broadcast_delivery
      ⟨[("alice", []), ("bob", []), ("carol", [])], [], ⟨[], [], none⟩⟩
      "alice" "hi all" 0 rfl).2 1 ("bob", []) rfl).2 (by decide)
    simpa using h
  · have h := ((claim_C5_broadcast_delivery
      ⟨[("alice", []), ("bob", []), ("carol", [])], [], ⟨[], [], none⟩⟩
      "alice" "hi all" 0 rfl).2 2 ("carol", []) rfl).2 (by decide)
    simpa using h

theorem readyB_eq_true_iff (done : List String) (t : PTask) :
    readyB done t = true ↔ ∀ d ∈ t.dependencies, d ∈ done := by
  simp [readyB, List.all_eq_true]

theorem readyB_congr (l₁ l₂ : List String) (h : ∀ x, x ∈ l₁ ↔ x ∈ l₂) (u : PTask) :
    readyB l₁ u = readyB l₂ u := by
  cases hb1 : readyB l₁ u with
  | true =>
    have := (readyB_eq_true_iff l₂ u).mpr
      (fun d hd => (h d).mp ((readyB_eq_true_iff l₁ u).mp hb1 d hd))
    exact this.symm
  | false =>
    cases hb2 : readyB l₂ u with
    | false => rfl
    | true =>
      exfalso
      have := (readyB_eq_true_iff l₁ u).mpr
        (fun d hd => (h d).mpr ((readyB_eq_true_iff l₂ u).mp hb2 d hd))
      rw [this] at hb1
      cases hb1

theorem find?_split {α : Type} (p : α → Bool) :
    ∀ (l : List α) (a : α), l.find? p = some a →
      ∃ l₁ l₂, l = l₁ ++ a :: l₂ ∧ ∀ x ∈ l₁, p x = false := by
  intro l
  induction l with
  | nil => intro a h; cases h
  | cons b rest ih =>
    intro a h
    cases hb : p b with
    | true =>
      rw [List.find?_cons_of_pos rest hb] at h
      injection h with h1
      subst h1
      exact ⟨[], rest, rfl, by simp⟩
    | false =>
      rw [List.find?_cons_of_neg rest (by simp [hb])] at h
      obtain ⟨l₁, l₂, rfl, hall⟩ := ih a h
      refine ⟨b :: l₁, l₂, rfl, ?_⟩
      intro x hx
      rcases List.mem_cons.mp hx with h1 | h2
      · subst h1; exact hb
      · exact hall x h2

theorem nodup_append_inj {α : Type} (x : α) : ∀ (c₁ c₂ d₁ d₂ : List α),
    (c₁ ++ x :: d₁).Nodup → c₁ ++ x :: d₁ = c₂ ++ x :: d₂ → c₁ = c₂ := by
  intro c₁
  induction c₁ with
  | nil =>
    intro c₂ d₁ d₂ hnd heq
    cases c₂ with
    | nil => rfl
    | cons y c₂' =>
      exfalso
      simp only [List.nil_append, List.cons_append] at heq
      injection heq with h1 h2
      subst y
      have hx : x ∈ d₁ := by rw [h2]; simp
      exact (List.nodup_cons.mp (by simpa using hnd)).1 hx
  | cons y c₁' ih =>
    intro c₂ d₁ d₂ hnd heq
    cases c₂ with
    | nil =>
      exfalso
      simp only [List.cons_append, List.nil_append] at heq
      injection heq with h1 h2
      subst y
      have hx : x ∈ c₁' ++ x :: d₁ := by simp
      have hnd2 : (x :: (c₁' ++ x :: d₁)).Nodup := by
        rw [List.cons_append] at hnd
        exact hnd
      exact (List.nodup_cons.mp hnd2).1 hx
    | cons z c₂' =>
      simp only [List.cons_append] at heq
      injection heq with h1 h2
      subst h1
      have := ih c₂' d₁ d₂ (List.nodup_cons.mp (by simpa using hnd)).2 h2
      rw [this]

theorem before_of_sublist : ∀ {r l : List PTask}, r.Sublist l → l.Nodup →
    ∀ {u t : PTask}, Before l u t → u ∈ r → t ∈ r → Before r u t := by
  intro r l hs
  induction hs with
  | slnil => intro _ u t _ hu _; cases hu
  | @cons r' l' a hs ih =>
    intro hnd u t hb hu ht
    obtain ⟨l₁, lm, l₃, heq⟩ := hb
    cases l₁ with
    | nil =>
      exfalso
      simp only [List.nil_append] at heq
      injection heq with h1 h2
      have hul : u ∈ l' := hs.subset hu
      rw [← h1] at hul
      exact (List.nodup_cons.mp hnd).1 hul
    | cons c l₁' =>
      simp only [List.cons_append] at heq
      injection heq with h1 h2
      exact ih (List.nodup_cons.mp hnd).2 ⟨l₁', lm, l₃, h2⟩ hu ht
  | @cons₂ r' l' a hs ih =>
    intro hnd u t hb hu ht
    obtain ⟨l₁, lm, l₃, heq⟩ := hb
    cases l₁ with
    | nil =>
      simp only [List.nil_append] at heq
      injection heq with h1 h2
      subst h1
      rcases List.mem_cons.mp ht with h3 | h3
      · exfalso
        have htl : t ∈ l' := by
          rw [h2]
          simp
        rw [h3] at htl
        exact (List.nodup_cons.mp hnd).1 htl
      · obtain ⟨s₁, s₂, hsplit⟩ := List.append_of_mem h3
        exact ⟨[], s₁, s₂, by simp [hsplit]⟩
    | cons c l₁' =>
      simp only [List.cons_append] at heq
      injection heq with h1 h2
      subst h1
      have hbl : Before l' u t := ⟨l₁', lm, l₃, h2⟩
      have humem : u ∈ l' := by rw [h2]; simp
      have htmem : t ∈ l' := by rw [h2]; simp
      have hu' : u ∈ r' := by
        rcases List.mem_cons.mp hu with h3 | h3
        · exfalso; rw [h3] at humem; exact (List.nodup_cons.mp hnd).1 humem
        · exact h3
      have ht' : t ∈ r' := by
        rcases List.mem_cons.mp ht with h3 | h3
        · exfalso; rw [h3] at htmem; exact (List.nodup_cons.mp hnd).1 htmem
        · exact h3
      obtain ⟨m₁, m₂, m₃, hm⟩ := ih (List.nodup_cons.mp hnd).2 hbl hu' ht'
      exact ⟨a :: m₁, m₂, m₃, by simp [hm]⟩

theorem topoFrom_mono : ∀ {ord : List PTask} {done done' : List String},
    TopoFrom done ord → (∀ x ∈ done, x ∈ done') → TopoFrom done' ord := by
  intro ord
  induction ord with
  | nil => intro done done' _ _; exact TopoFrom.nil done'
  | cons t rest ih =>
    intro done done' h hsub
    cases h with
    | cons _ _ _ hdeps htail =>
      refine TopoFrom.cons done' t rest (fun d hd => hsub d (hdeps d hd)) ?_
      refine ih htail ?_
      intro x hx
      rcases List.mem_cons.mp hx with h1 | h2
      · exact h1 ▸ List.mem_cons_self _ _
      · exact List.mem_cons_of_mem _ (hsub x h2)

theorem topoFrom_erase : ∀ {ord : List PTask} {done : List String} {t : PTask},
    TopoFrom done ord → t ∈ ord → (∀ d ∈ t.dependencies, d ∈ done) →
    TopoFrom (t.id :: done) (ord.erase t) := by
  intro ord
  induction ord with
  | nil => intro done t _ htm _; cases htm
  | cons u rest ih =>
    intro done t h htm hdeps
    cases h with
    | cons _ _ _ hu htail =>
      by_cases he : u = t
      · subst he
        rw [List.erase_cons_head]
        exact htail
      · have htr : t ∈ rest := by
          rcases List.mem_cons.mp htm with h1 | h2
          · exact absurd h1.symm he
          · exact h2
        rw [List.erase_cons_tail (by simpa using he)]
        refine TopoFrom.cons _ u _ (fun d hd => List.mem_cons_of_mem _ (hu d hd)) ?_
        have h1 := ih htail htr (fun d hd => List.mem_cons_of_mem _ (hdeps d hd))
        refine topoFrom_mono h1 ?_
        intro x hx
        simp only [List.mem_cons] at hx ⊢
        tauto

theorem kahnAux_sound : ∀ (fuel : Nat) (done : List String) (rem ord : List PTask),
    kahnAux fuel done rem = some ord → ord.Perm rem ∧ TopoFrom done ord := by
  intro fuel
  induction fuel with
  | zero =>
    intro done rem ord h
    cases rem with
    | nil =>
      simp only [kahnAux, Option.some.injEq] at h
      subst h
      exact ⟨List.Perm.refl _, TopoFrom.nil _⟩
    | cons t0 rem' => simp [kahnAux] at h
  | succ n ih =>
    intro done rem ord h
    cases rem with
    | nil =>
      simp only [kahnAux, Option.some.injEq] at h
      subst h
      exact ⟨List.Perm.refl _, TopoFrom.nil _⟩
    | cons t0 rem' =>
      simp only [kahnAux] at h
      cases hf : (t0 :: rem').find? (readyB done) with
      | none => rw [hf] at h; simp at h
      | some t =>
        rw [hf] at h
        simp only [Option.some_bind] at h
        cases hrec : kahnAux n (t.id :: done) ((t0 :: rem').erase t) with
        | none => rw [hrec] at h; simp at h
        | some ord' =>
          rw [hrec] at h
          simp only [Option.map_some', Option.some.injEq] at h
          subst h
          obtain ⟨hperm, htopo⟩ := ih (t.id :: done) ((t0 :: rem').erase t) ord' hrec
          have htmem : t ∈ t0 :: rem' := List.mem_of_find?_eq_some hf
          have hready := (readyB_eq_true_iff done t).mp (List.find?_some hf)
          exact ⟨(hperm.cons t).trans (List.perm_cons_erase htmem).symm,
            TopoFrom.cons done t ord' hready htopo⟩

theorem kahnAux_complete : ∀ (fuel : Nat) (done : List String) (rem ord₀ : List PTask),
    rem.length ≤ fuel → ord₀.Perm rem → TopoFrom done ord₀ →
    ∃ ord, kahnAux fuel done rem = some ord := by
  intro fuel
  induction fuel with
  | zero =>
    intro done rem ord₀ hlen _ _
    have hnil : rem = [] := List.eq_nil_of_length_eq_zero (Nat.le_zero.mp hlen)
    subst hnil
    exact ⟨[], rfl⟩
  | succ n ih =>
    intro done rem ord₀ hlen hperm htopo
    cases rem with
    | nil => exact ⟨[], rfl⟩
    | cons t0 rem' =>
      have hne : ord₀ ≠ [] := by
        intro hh
        have := hperm.length_eq
        rw [hh] at this
        simp at this
      obtain ⟨th, rest, hord⟩ := List.exists_cons_of_ne_nil hne
      subst hord
      have hdeps : ∀ d ∈ th.dependencies, d ∈ done := by
        cases htopo with | cons _ _ _ hd _ => exact hd
      have hthm : th ∈ t0 :: rem' := hperm.subset (List.mem_cons_self th rest)
      obtain ⟨t, hf⟩ : ∃ t, (t0 :: rem').find? (readyB done) = some t := by
        cases hfo : (t0 :: rem').find? (readyB done) with
        | none =>
          exfalso
          rw [List.find?_eq_none] at hfo
          exact hfo th hthm ((readyB_eq_true_iff done th).mpr hdeps)
        | some t => exact ⟨t, rfl⟩
      have htmem := List.mem_of_find?_eq_some hf
      have htready := (readyB_eq_true_iff done t).mp (List.find?_some hf)
      have htord : t ∈ th :: rest := hperm.mem_iff.mpr htmem
      have hperm' : ((th :: rest).erase t).Perm ((t0 :: rem').erase t) := hperm.erase t
      have htopo' : TopoFrom (t.id :: done) ((th :: rest).erase t) :=
        topoFrom_erase htopo htord htready
      have hlen' : ((t0 :: rem').erase t).length ≤ n := by
        rw [List.length_erase_of_mem htmem]
        simp only [List.length_cons] at hlen ⊢
        omega
      obtain ⟨ord, hord⟩ := ih (t.id :: done) ((t0 :: rem').erase t)
        ((th :: rest).erase t) hlen' hperm' htopo'
      refine ⟨t :: ord, ?_⟩
      simp only [kahnAux, hf, Option.some_bind, hord, Option.map_some']

theorem kahnAux_tie : ∀ (fuel : Nat) (done : List String) (rem ord big : List PTask),
    rem.Sublist big → (idsOf big).Nodup →
    kahnAux fuel done rem = some ord →
    ∀ (pre : List PTask) (t : PTask) (post : List PTask), ord = pre ++ t :: post →
      ∀ u ∈ post, Before big u t → readyB (done ++ idsOf pre) u = false := by
  intro fuel
  induction fuel with
  | zero =>
    intro done rem ord big _ _ h pre t post heq u hu _
    cases rem with
    | nil =>
      simp only [kahnAux, Option.some.injEq] at h
      subst h
      cases pre <;> simp at heq
    | cons _ _ => simp [kahnAux] at h
  | succ n ih =>
    intro done rem ord big hsub hnd h pre t post heq u hu hub
    cases rem with
    | nil =>
      simp only [kahnAux, Option.some.injEq] at h
      subst h
      cases pre <;> simp at heq
    | cons t0 rem' =>
      simp only [kahnAux] at h
      cases hf : (t0 :: rem').find? (readyB done) with
      | none => rw [hf] at h; simp at h
      | some tp =>
        rw [hf] at h
        simp only [Option.some_bind] at h
        cases hrec : kahnAux n (tp.id :: done) ((t0 :: rem').erase tp) with
        | none => rw [hrec] at h; simp at h
        | some ord' =>
          rw [hrec] at h
          simp only [Option.map_some', Option.some.injEq] at h
          subst h
          have hndb : big.Nodup := List.Nodup.of_map PTask.id hnd
          cases pre with
          | nil =>
            simp only [List.nil_append] at heq
            injection heq with h1 h2
            subst h1
            subst h2
            have hsound := kahnAux_sound n (tp.id :: done) ((t0 :: rem').erase tp) ord' hrec
            have humem : u ∈ t0 :: rem' :=
              List.mem_of_mem_erase (hsound.1.subset hu)
            have htpmem : tp ∈ t0 :: rem' := List.mem_of_find?_eq_some hf
            have hbrem : Before (t0 :: rem') u tp :=
              before_of_sublist hsub hndb hub humem htpmem
            obtain ⟨l₁, l₂, l₃, hsplit⟩ := hbrem
            obtain ⟨a, b, hab, hfalse⟩ := find?_split (readyB done) (t0 :: rem') tp hf
            have hndrem : (t0 :: rem').Nodup := List.Nodup.sublist hsub hndb
            have hsplit' : (t0 :: rem') = (l₁ ++ u :: l₂) ++ tp :: l₃ := by
              simp [hsplit]
            have haeq : l₁ ++ u :: l₂ = a := by
              refine nodup_append_inj tp (l₁ ++ u :: l₂) a l₃ b ?_ ?_
              · rw [← hsplit']; exact hndrem
              · rw [← hsplit']; exact hab
            have hua : u ∈ a := by rw [← haeq]; simp
            have hru := hfalse u hua
            have : readyB (done ++ idsOf ([] : List PTask)) u = readyB done u := by
              simp [idsOf]
            rw [this]
            exact hru
          | cons p0 pre' =>
            rw [List.cons_append] at heq
            injection heq with h1 h2
            rw [← h1]
            have hsub' : ((t0 :: rem').erase tp).Sublist big :=
              List.Sublist.trans (List.erase_sublist _ _) hsub
            have hres := ih (tp.id :: done) ((t0 :: rem').erase tp) ord' big hsub' hnd
              hrec pre' t post h2 u hu hub
            have hmem : ∀ x, x ∈ done ++ idsOf (tp :: pre') ↔
                x ∈ (tp.id :: done) ++ idsOf pre' := by
              intro x
              simp only [idsOf, List.map_cons, List.mem_append, List.mem_cons]
              tauto
            rw [readyB_congr _ _ hmem u]
            exact hres

/-- Claim C4: for a task plan with distinct task ids, `tasks_in_order`
yields every task exactly once (a permutation of the plan's tasks) in a
topological order of the dependency DAG — no task before any of its
dependencies — and ties among simultaneously-ready tasks are broken by
creation order: whenever a task `u` that comes earlier in creation order
than an emitted task `t` is only emitted after `t`, `u` was not ready
(some dependency of `u` was not yet emitted) when `t` was chosen. -/
theorem claim_C4_tasks_in_order_topological (tasks ord : List PTask)
    (hnd : (idsOf tasks).Nodup) (h : tasksInOrder tasks = some ord) :
    ord.Perm tasks ∧ TopoFrom [] ord ∧
    (∀ (pre : List PTask) (t : PTask) (post : List PTask), ord = pre ++ t :: post →
      ∀ u ∈ post, Before tasks u t → readyB (idsOf pre) u = false) := by
  have hs := kahnAux_sound tasks.length [] tasks ord h
  refine ⟨hs.1, hs.2, ?_⟩
  intro pre t post heq u hu hb
  have ht := kahnAux_tie tasks.length [] tasks ord tasks (List.Sublist.refl _) hnd h
    pre t post heq u hu hb
  simpa using ht

theorem claim_C4_witness :
    tasksInOrder
        [{ id := "t2", description := "", assigned_to := "w", dependencies := ["t1"],
           status := .pending, result := none },
         { id := "t1", description := "", assigned_to := "w", dependencies := [],
           status := .pending, result := none }] =
      some
        [{ id := "t1", description := "", assigned_to := "w", dependencies := [],
           status := .pending, result := none },
         { id := "t2", description := "", assigned_to := "w", dependencies := ["t1"],
           status := .pending, result := none }] ∧
    ([{ id := "t1", description := "", assigned_to := "w", dependencies := [],
        status := .pending, result := none },
      { id := "t2", description := "", assigned_to := "w", dependencies := ["t1"],
        status := .pending, result := none }] : List PTask).Perm
      [{ id := "t2", description := "", assigned_to := "w", dependencies := ["t1"],
         status := .pending, result := none },
       { id := "t1", description := "", assigned_to := "w", dependencies := [],
         status := .pending, result := none }] ∧
    TopoFrom []
      [{ id := "t1", description := "", assigned_to := "w", dependencies := [],
         status := .pending, result := none },
       { id := "t2", description := "", assigned_to := "w", dependencies := ["t1"],
         status := .pending, result := none }] := by
  have h := claim_C4_tasks_in_order_topological
    [{ id := "t2", description := "", assigned_to := "w", dependencies := ["t1"],
       status := .pending, result := none },
     { id := "t1", description := "", assigned_to := "w", dependencies := [],
       status := .pending, result := none }]
    [{ id := "t1", description := "", assigned_to := "w", dependencies := [],
       status := .pending, result := none },
     { id := "t2", description := "", assigned_to := "w", dependencies := ["t1"],
       status := .pending, result := none }]
    (by decide) (by decide)
  exact ⟨by decide, h.1, h.2.1⟩

/-- Claim C3: `create_plan` fails with an `InvalidInput` error and leaves
the shared context (and hence the installed plan) unchanged whenever the
task list has a dependency cycle (no topological ordering), a duplicate
task id, an `assigned_to` outside the available agent set, or a dependency
referencing an undeclared task id; on every valid plan it succeeds and
installs the plan into the shared context. -/
theorem claim_C3_create_plan_validation (avail : List String) (objective : String)
    (tasks : List PTask) (ctx : SharedContext) :
    ((¬ CycleFree tasks ∨ ¬ (idsOf tasks).Nodup ∨ (∃ t ∈ tasks, t.assigned_to ∉ avail) ∨
        (∃ t ∈ tasks, ∃ d ∈ t.dependencies, d ∉ idsOf tasks)) →
      (createPlan avail objective tasks ctx).1.success = false ∧
      (∃ suffix, (createPlan avail objective tasks ctx).1.error =
        some ("InvalidInput" ++ suffix)) ∧
      (createPlan avail objective tasks ctx).2 = ctx) ∧
    ((CycleFree tasks ∧ (idsOf tasks).Nodup ∧ (∀ t ∈ tasks, t.assigned_to ∈ avail) ∧
        (∀ t ∈ tasks, ∀ d ∈ t.dependencies, d ∈ idsOf tasks)) →
      (createPlan avail objective tasks ctx).1.success = true ∧
      (createPlan avail objective tasks ctx).2 =
        { ctx with plan := some { objective := objective, tasks := tasks } }) := by
  constructor
  · intro hbad
    unfold createPlan
    by_cases h1 : (idsOf tasks).Nodup
    · rw [if_neg (not_not_intro h1)]
      by_cases h2 : ∀ t ∈ tasks, t.assigned_to ∈ avail
      · rw [if_neg (not_not_intro h2)]
        by_cases h3 : ∀ t ∈ tasks, ∀ d ∈ t.dependencies, d ∈ idsOf tasks
        · rw [if_neg (not_not_intro h3)]
          have hcyc : ¬ CycleFree tasks := by
            rcases hbad with hc | hc | hc | hc
            · exact hc
            · exact absurd h1 hc
            · obtain ⟨t, ht, hta⟩ := hc; exact absurd (h2 t ht) hta
            · obtain ⟨t, ht, d, hd, hdn⟩ := hc; exact absurd (h3 t ht d hd) hdn
          have hnone : tasksInOrder tasks = none := by
            cases hto : tasksInOrder tasks with
            | none => rfl
            | some ord =>
              exfalso
              have := kahnAux_sound tasks.length [] tasks ord hto
              exact hcyc ⟨ord, this.1, this.2⟩
          rw [hnone]
          refine ⟨rfl, ⟨": dependency cycle detected", ?_⟩, rfl⟩
          rw [show ("InvalidInput" ++ ": dependency cycle detected" : String) =
            "InvalidInput: dependency cycle detected" from by decide]
          rfl
        · rw [if_pos h3]
          refine ⟨rfl, ⟨": unknown dependency id", ?_⟩, rfl⟩
          rw [show ("InvalidInput" ++ ": unknown dependency id" : String) =
            "InvalidInput: unknown dependency id" from by decide]
          rfl
      · rw [if_pos h2]
        refine ⟨rfl, ⟨": unknown agent id", ?_⟩, rfl⟩
        rw [show ("InvalidInput" ++ ": unknown agent id" : String) =
          "InvalidInput: unknown agent id" from by decide]
        rfl
    · rw [if_pos h1]
      refine ⟨rfl, ⟨": duplicate task id", ?_⟩, rfl⟩
      rw [show ("InvalidInput" ++ ": duplicate task id" : String) =
        "InvalidInput: duplicate task id" from by decide]
      rfl
  · rintro ⟨hcyc, h1, h2, h3⟩
    obtain ⟨ord₀, hperm, htopo⟩ := hcyc
    obtain ⟨ord, hord⟩ := kahnAux_complete tasks.length [] tasks ord₀
      (Nat.le_refl _) hperm htopo
    have hto : tasksInOrder tasks = some ord := hord
    unfold createPlan
    rw [if_neg (not_not_intro h1), if_neg (not_not_intro h2), if_neg (not_not_intro h3),
      hto]
    exact ⟨rfl, rfl⟩

theorem claim_C3_witness :
    (¬ (idsOf
        [{ id := "a", description := "", assigned_to := "w", dependencies := [],
           status := TStatus.pending, result := none },
         { id := "a", description := "", assigned_to := "w", dependencies := [],
           status := TStatus.pending, result := none }]).Nodup) ∧
    (createPlan ["w"] "obj"
      [{ id := "a", description := "", assigned_to := "w", dependencies := [],
         status := TStatus.pending, result := none },
       { id := "a", description := "", assigned_to := "w", dependencies := [],
         status := TStatus.pending, result := none }]
      ⟨[], [], none⟩).1.success = false ∧
    (createPlan ["w"] "obj"
      [{ id := "a", description := "", assigned_to := "w", dependencies := [],
         status := TStatus.pending, result := none },
       { id := "a", description := "", assigned_to := "w", dependencies := [],
         status := TStatus.pending, result := none }]
      ⟨[], [], none⟩).2 = ⟨[], [], none⟩ ∧
    (createPlan ["w"] "obj"
      [{ id := "b", description := "", assigned_to := "w", dependencies := [],
         status := TStatus.pending, result := none }]
      ⟨[], [], none⟩).1.success = true := by
  refine ⟨by decide, ?_, ?_, ?_⟩
  · exact ((claim_C3_create_plan_validation ["w"] "obj" _ ⟨[], [], none⟩).1
      (Or.inr (Or.inl (by decide)))).1
  · exact ((claim_C3_create_plan_validation ["w"] "obj" _ ⟨[], [], none⟩).1
      (Or.inr (Or.inl (by decide)))).2.2
  · refine ((claim_C3_create_plan_validation ["w"] "obj"
      [{ id := "b", description := "", assigned_to := "w", dependencies := [],
         status := TStatus.pending, result := none }] ⟨[], [], none⟩).2
      ⟨⟨[{ id := "b", description := "", assigned_to := "w", dependencies := [],
           status := TStatus.pending, result := none }], List.Perm.refl _, ?_⟩,
        by decide, by decide, by decide⟩).1
    exact TopoFrom.cons [] _ [] (by simp) (TopoFrom.nil _)

theorem idsOf_map_pres (g : PTask → PTask) (hg : ∀ u, (g u).id = u.id) :
    ∀ tasks : List PTask, idsOf (tasks.map g) = idsOf tasks := by
  intro tasks
  induction tasks with
  | nil => rfl
  | cons u rest ih =>
    simp only [idsOf, List.map_cons] at ih ⊢
    rw [hg u, ih]

theorem taskById_setTask (tasks : List PTask) (pid : String) (st : TStatus)
    (res : Option String) (tid : String) :
    taskById (setTask tasks pid st res) tid =
      (taskById tasks tid).map (fun u =>
        if u.id == pid then { u with status := st, result := res } else u) :=
  taskById_map _ (by intro u; split <;> rfl) tasks tid

theorem taskById_markBlocked (tasks : List PTask) (tid : String) :
    taskById (markBlocked tasks) tid =
      (taskById tasks tid).map (fun u =>
        if u.status == TStatus.pending then
          { u with status := TStatus.failed, result := some "blocked" }
        else u) :=
  taskById_map _ (by intro u; split <;> rfl) tasks tid

theorem idsOf_setTask (tasks : List PTask) (pid : String) (st : TStatus)
    (res : Option String) : idsOf (setTask tasks pid st res) = idsOf tasks :=
  idsOf_map_pres _ (by intro u; split <;> rfl) tasks

theorem taskById_of_mem_nodup : ∀ (tasks : List PTask), (idsOf tasks).Nodup →
    ∀ t ∈ tasks, taskById tasks t.id = some t := by
  intro tasks
  induction tasks with
  | nil => intro _ t ht; cases ht
  | cons u rest ih =>
    intro hnd t ht
    have hnd2 : u.id ∉ List.map PTask.id rest ∧ (List.map PTask.id rest).Nodup := by
      have hh := hnd
      rw [idsOf, List.map_cons, List.nodup_cons] at hh
      exact hh
    rcases List.mem_cons.mp ht with h1 | h2
    · subst h1
      simp [taskById, List.find?_cons]
    · have hne : (u.id == t.id) = false := by
        apply beq_eq_false_iff_ne.mpr
        intro he
        have hmem : t.id ∈ List.map PTask.id rest := List.mem_map_of_mem PTask.id h2
        rw [← he] at hmem
        exact hnd2.1 hmem
      rw [taskById, List.find?_cons_of_neg _ (by simp [hne])]
      exact ih hnd2.2 t h2

theorem pickReady_spec (tasks : List PTask) (t : PTask) (h : pickReady tasks = some t) :
    t ∈ tasks ∧ t.status = TStatus.pending ∧ depsDone tasks t = true := by
  refine ⟨List.mem_of_find?_eq_some h, ?_, ?_⟩
  · have hb := List.find?_some h
    simp only [Bool.and_eq_true, beq_iff_eq] at hb
    exact hb.1
  · have hb := List.find?_some h
    simp only [Bool.and_eq_true] at hb
    exact hb.2

theorem depsDone_eq_true_iff (tasks : List PTask) (t : PTask) :
    depsDone tasks t = true ↔
      ∀ d ∈ t.dependencies, ∃ w ∈ tasks, w.id = d ∧ w.status = TStatus.completed := by
  simp [depsDone, List.all_eq_true, List.any_eq_true, Bool.and_eq_true, beq_iff_eq]

theorem runPlanAux_inv_prefix (outcome : String → Except String String) :
    ∀ (fuel : Nat) (tasks : List PTask) (inv : List String),
      ∃ rest, (runPlanAux outcome fuel tasks inv).2 = inv ++ rest := by
  intro fuel
  induction fuel with
  | zero => intro tasks inv; exact ⟨[], by simp [runPlanAux]⟩
  | succ n ih =>
    intro tasks inv
    cases hp : pickReady tasks with
    | none => exact ⟨[], by simp [runPlanAux, hp]⟩
    | some t =>
      cases ho : outcome t.id with
      | ok res =>
        obtain ⟨rest, hr⟩ :=
          ih (setTask tasks t.id TStatus.completed (some res)) (inv ++ [t.id])
        exact ⟨t.id :: rest, by simp [runPlanAux, hp, ho, hr]⟩
      | error err =>
        obtain ⟨rest, hr⟩ :=
          ih (setTask tasks t.id TStatus.failed (some err)) (inv ++ [t.id])
        exact ⟨t.id :: rest, by simp [runPlanAux, hp, ho, hr]⟩

theorem runPlanAux_persists (outcome : String → Except String String) :
    ∀ (fuel : Nat) (tasks : List PTask) (inv : List String) (tid : String) (u : PTask),
      (idsOf tasks).Nodup → taskById tasks tid = some u →
      (u.status = TStatus.completed ∨ u.status = TStatus.failed) →
      taskById (runPlanAux outcome fuel tasks inv).1 tid = some u := by
  intro fuel
  induction fuel with
  | zero =>
    intro tasks inv tid u _ hfind hterm
    have hb : ¬ u.status = TStatus.pending := by
      rcases hterm with h | h <;> simp [h]
    simp [runPlanAux, taskById_markBlocked, hfind, hb]
  | succ n ih =>
    intro tasks inv tid u hnd hfind hterm
    cases hp : pickReady tasks with
    | none =>
      have hb : ¬ u.status = TStatus.pending := by
        rcases hterm with h | h <;> simp [h]
      simp [runPlanAux, hp, taskById_markBlocked, hfind, hb]
    | some t =>
      obtain ⟨htm, htp, _⟩ := pickReady_spec tasks t hp
      have htid := taskById_id tasks tid u hfind
      have hneq : ¬ u.id = t.id := by
        intro he
        have ht' : taskById tasks t.id = some t := taskById_of_mem_nodup tasks hnd t htm
        rw [← he, htid, hfind] at ht'
        injection ht' with hh
        rw [← hh] at htp
        rcases hterm with h | h <;> rw [h] at htp <;> cases htp
      cases ho : outcome t.id with
      | ok res =>
        have hfind' : taskById (setTask tasks t.id TStatus.completed (some res)) tid =
            some u := by
          rw [taskById_setTask, hfind]
          simp [hneq]
        have hnd' : (idsOf (setTask tasks t.id TStatus.completed (some res))).Nodup := by
          rw [idsOf_setTask]; exact hnd
        have := ih (setTask tasks t.id TStatus.completed (some res)) (inv ++ [t.id])
          tid u hnd' hfind' hterm
        simpa [runPlanAux, hp, ho] using this
      | error err =>
        have hfind' : taskById (setTask tasks t.id TStatus.failed (some err)) tid =
            some u := by
          rw [taskById_setTask, hfind]
          simp [hneq]
        have hnd' : (idsOf (setTask tasks t.id TStatus.failed (some err))).Nodup := by
          rw [idsOf_setTask]; exact hnd
        have := ih (setTask tasks t.id TStatus.failed (some err)) (inv ++ [t.id])
          tid u hnd' hfind' hterm
        simpa [runPlanAux, hp, ho] using this

theorem runPlanAux_blocked (outcome : String → Except String String) :
    ∀ (fuel : Nat) (tasks : List PTask) (inv : List String) (tid : String) (u : PTask),
      (idsOf tasks).Nodup → taskById tasks tid = some u →
      u.status = TStatus.pending →
      tid ∉ (runPlanAux outcome fuel tasks inv).2 →
      taskById (runPlanAux outcome fuel tasks inv).1 tid =
        some { u with status := TStatus.failed, result := some "blocked" } := by
  intro fuel
  induction fuel with
  | zero =>
    intro tasks inv tid u _ hfind hpend _
    simp [runPlanAux, taskById_markBlocked, hfind, hpend]
  | succ n ih =>
    intro tasks inv tid u hnd hfind hpend hnin
    cases hp : pickReady tasks with
    | none =>
      simp [runPlanAux, hp, taskById_markBlocked, hfind, hpend]
    | some t =>
      have htid := taskById_id tasks tid u hfind
      cases ho : outcome t.id with
      | ok res =>
        have hnin' : tid ∉
            (runPlanAux outcome n (setTask tasks t.id TStatus.completed (some res))
              (inv ++ [t.id])).2 := by
          intro hmem
          apply hnin
          simpa [runPlanAux, hp, ho] using hmem
        have htne : ¬ tid = t.id := by
          intro he
          obtain ⟨rest, hr⟩ := runPlanAux_inv_prefix outcome n
            (setTask tasks t.id TStatus.completed (some res)) (inv ++ [t.id])
          apply hnin'
          rw [hr, he]
          simp
        have hfind' : taskById (setTask tasks t.id TStatus.completed (some res)) tid =
            some u := by
          rw [taskById_setTask, hfind]
          simp [htid, htne]
        have hnd' : (idsOf (setTask tasks t.id TStatus.completed (some res))).Nodup := by
          rw [idsOf_setTask]; exact hnd
        have := ih (setTask tasks t.id TStatus.completed (some res)) (inv ++ [t.id])
          tid u hnd' hfind' hpend hnin'
        simpa [runPlanAux, hp, ho] using this
      | error err =>
        have hnin' : tid ∉
            (runPlanAux outcome n (setTask tasks t.id TStatus.failed (some err))
              (inv ++ [t.id])).2 := by
          intro hmem
          apply hnin
          simpa [runPlanAux, hp, ho] using hmem
        have htne : ¬ tid = t.id := by
          intro he
          obtain ⟨rest, hr⟩ := runPlanAux_inv_prefix outcome n
            (setTask tasks t.id TStatus.failed (some err)) (inv ++ [t.id])
          apply hnin'
          rw [hr, he]
          simp
        have hfind' : taskById (setTask tasks t.id TStatus.failed (some err)) tid =
            some u := by
          rw [taskById_setTask, hfind]
          simp [htid, htne]
        have hnd' : (idsOf (setTask tasks t.id TStatus.failed (some err))).Nodup := by
          rw [idsOf_setTask]; exact hnd
        have := ih (setTask tasks t.id TStatus.failed (some err)) (inv ++ [t.id])
          tid u hnd' hfind' hpend hnin'
        simpa [runPlanAux, hp, ho] using this

theorem runPlanAux_invoked_deps (outcome : String → Except String String) :
    ∀ (fuel : Nat) (tasks : List PTask) (inv : List String) (tid : String) (u : PTask),
      (idsOf tasks).Nodup → taskById tasks tid = some u →
      tid ∉ inv → tid ∈ (runPlanAux outcome fuel tasks inv).2 →
      ∀ d ∈ u.dependencies,
        ∃ w, taskById (runPlanAux outcome fuel tasks inv).1 d = some w ∧
          w.status = TStatus.completed := by
  intro fuel
  induction fuel with
  | zero =>
    intro tasks inv tid u _ _ hninv hin
    exfalso
    simp only [runPlanAux] at hin
    exact hninv hin
  | succ n ih =>
    intro tasks inv tid u hnd hfind hninv hin
    cases hp : pickReady tasks with
    | none =>
      exfalso
      simp only [runPlanAux, hp] at hin
      exact hninv hin
    | some t =>
      obtain ⟨htm, htp, htd⟩ := pickReady_spec tasks t hp
      by_cases he : t.id = tid
      · -- the picked task is the looked-up one: u = t
        have ht' : taskById tasks t.id = some t := taskById_of_mem_nodup tasks hnd t htm
        rw [he, hfind] at ht'
        injection ht' with hh
        intro d hd
        have hdw : ∃ w ∈ tasks, w.id = d ∧ w.status = TStatus.completed := by
          have := (depsDone_eq_true_iff tasks t).mp htd d (by rw [← hh]; exact hd)
          exact this
        obtain ⟨w, hw, hwid, hwc⟩ := hdw
        have hwfind : taskById tasks d = some w := by
          rw [← hwid]
          exact taskById_of_mem_nodup tasks hnd w hw
        have hwne : ¬ w.id = t.id := by
          intro hww
          have := taskById_of_mem_nodup tasks hnd w hw
          rw [hww] at this
          rw [he, hfind] at this
          injection this with h2
          have hwt : w = t := h2.symm.trans hh
          rw [hwt, htp] at hwc
          cases hwc
        cases ho : outcome t.id with
        | ok res =>
          have hwfind' : taskById (setTask tasks t.id TStatus.completed (some res)) d =
              some w := by
            rw [taskById_setTask, hwfind]
            simp [hwne]
          have hnd' : (idsOf (setTask tasks t.id TStatus.completed (some res))).Nodup := by
            rw [idsOf_setTask]; exact hnd
          have hpers := runPlanAux_persists outcome n
            (setTask tasks t.id TStatus.completed (some res)) (inv ++ [t.id]) d w
            hnd' hwfind' (Or.inl hwc)
          refine ⟨w, ?_, hwc⟩
          simpa [runPlanAux, hp, ho] using hpers
        | error err =>
          have hwfind' : taskById (setTask tasks t.id TStatus.failed (some err)) d =
              some w := by
            rw [taskById_setTask, hwfind]
            simp [hwne]
          have hnd' : (idsOf (setTask tasks t.id TStatus.failed (some err))).Nodup := by
            rw [idsOf_setTask]; exact hnd
          have hpers := runPlanAux_persists outcome n
            (setTask tasks t.id TStatus.failed (some err)) (inv ++ [t.id]) d w
            hnd' hwfind' (Or.inl hwc)
          refine ⟨w, ?_, hwc⟩
          simpa [runPlanAux, hp, ho] using hpers
      · -- a different task was picked this round
        have htid := taskById_id tasks tid u hfind
        have hune : ¬ u.id = t.id := by rw [htid]; intro hh; exact he hh.symm
        have hninv' : tid ∉ inv ++ [t.id] := by
          intro hmem
          rcases List.mem_append.mp hmem with h1 | h1
          · exact hninv h1
          · rcases List.mem_cons.mp h1 with h2 | h2
            · exact he h2.symm
            · cases h2
        cases ho : outcome t.id with
        | ok res =>
          have hfind' : taskById (setTask tasks t.id TStatus.completed (some res)) tid =
              some u := by
            rw [taskById_setTask, hfind]
            simp [hune]
          have hnd' : (idsOf (setTask tasks t.id TStatus.completed (some res))).Nodup := by
            rw [idsOf_setTask]; exact hnd
          have hin' : tid ∈ (runPlanAux outcome n
              (setTask tasks t.id TStatus.completed (some res)) (inv ++ [t.id])).2 := by
            simpa [runPlanAux, hp, ho] using hin
          have := ih (setTask tasks t.id TStatus.completed (some res)) (inv ++ [t.id])
            tid u hnd' hfind' hninv' hin'
          intro d hd
          obtain ⟨w, hw1, hw2⟩ := this d hd
          refine ⟨w, ?_, hw2⟩
          simpa [runPlanAux, hp, ho] using hw1
        | error err =>
          have hfind' : taskById (setTask tasks t.id TStatus.failed (some err)) tid =
              some u := by
            rw [taskById_setTask, hfind]
            simp [hune]
          have hnd' : (idsOf (setTask tasks t.id TStatus.failed (some err))).Nodup := by
            rw [idsOf_setTask]; exact hnd
          have hin' : tid ∈ (runPlanAux outcome n
              (setTask tasks t.id TStatus.failed (some err)) (inv ++ [t.id])).2 := by
            simpa [runPlanAux, hp, ho] using hin
          have := ih (setTask tasks t.id TStatus.failed (some err)) (inv ++ [t.id])
            tid u hnd' hfind' hninv' hin'
          intro d hd
          obtain ⟨w, hw1, hw2⟩ := this d hd
          refine ⟨w, ?_, hw2⟩
          simpa [runPlanAux, hp, ho] using hw1

theorem blocked_of_dep (outcome : String → Except String String) (tasks : List PTask)
    (hnd : (idsOf tasks).Nodup) (hp : ∀ t ∈ tasks, t.status = TStatus.pending)
    (u : PTask) (hu : u ∈ tasks) (d : String) (hd : d ∈ u.dependencies)
    (hdnc : ∀ w, taskById (executePlan outcome tasks).1 d = some w →
      ¬ w.status = TStatus.completed) :
    u.id ∉ (executePlan outcome tasks).2 ∧
    taskById (executePlan outcome tasks).1 u.id =
      some { u with status := TStatus.failed, result := some "blocked" } := by
  have hfind : taskById tasks u.id = some u := taskById_of_mem_nodup tasks hnd u hu
  by_cases hin : u.id ∈ (executePlan outcome tasks).2
  · exfalso
    obtain ⟨w, hw, hwc⟩ := runPlanAux_invoked_deps outcome tasks.length tasks [] u.id u
      hnd hfind (by simp) hin d hd
    exact hdnc w hw hwc
  · exact ⟨hin, runPlanAux_blocked outcome tasks.length tasks [] u.id u hnd hfind
      (hp u hu) hin⟩

/-- Claim C6: during collaborative plan execution, whenever a task ends
Failed, every task that transitively depends on it is marked Failed with
the "blocked" reason and its assigned agent is never invoked for that
task. -/
theorem claim_C6_blocked_propagation (outcome : String → Except String String)
    (tasks : List PTask) (uid fid : String)
    (hnd : (idsOf tasks).Nodup) (hp : ∀ t ∈ tasks, t.status = TStatus.pending)
    (hchain : DepChain tasks uid fid)
    (hf : statusById (executePlan outcome tasks).1 fid = some TStatus.failed) :
    statusById (executePlan outcome tasks).1 uid = some TStatus.failed ∧
    resultById (executePlan outcome tasks).1 uid = some (some "blocked") ∧
    uid ∉ (executePlan outcome tasks).2 := by
  revert hf
  induction hchain with
  | direct u d hu hd =>
    intro hf
    have hdnc : ∀ w, taskById (executePlan outcome tasks).1 d = some w →
        ¬ w.status = TStatus.completed := by
      intro w hw hwc
      rw [statusById, hw] at hf
      simp only [Option.map_some'] at hf
      injection hf with hf2
      rw [hwc] at hf2
      cases hf2
    obtain ⟨hnin, hbl⟩ := blocked_of_dep outcome tasks hnd hp u hu d hd hdnc
    exact ⟨by simp [statusById, hbl], by simp [resultById, hbl], hnin⟩
  | step u d fid' hu hd hc ih =>
    intro hf
    have hdres := ih hf
    have hdnc : ∀ w, taskById (executePlan outcome tasks).1 d = some w →
        ¬ w.status = TStatus.completed := by
      intro w hw hwc
      have h1 := hdres.1
      rw [statusById, hw] at h1
      simp only [Option.map_some'] at h1
      injection h1 with h2
      rw [hwc] at h2
      cases h2
    obtain ⟨hnin, hbl⟩ := blocked_of_dep outcome tasks hnd hp u hu d hd hdnc
    exact ⟨by simp [statusById, hbl], by simp [resultById, hbl], hnin⟩

theorem claim_C6_witness :
    ((idsOf
      [{ id := "t1", description := "", assigned_to := "w", dependencies := [],
         status := TStatus.pending, result := none },
       { id := "t2", description := "", assigned_to := "w", dependencies := ["t1"],
         status := TStatus.pending, result := none }]).Nodup) ∧
    statusById (executePlan (fun _ => Except.error "boom")
      [{ id := "t1", description := "", assigned_to := "w", dependencies := [],
         status := TStatus.pending, result := none },
       { id := "t2", description := "", assigned_to := "w", dependencies := ["t1"],
         status := TStatus.pending, result := none }]).1 "t1" = some TStatus.failed ∧
    statusById (executePlan (fun _ => Except.error "boom")
      [{ id := "t1", description := "", assigned_to := "w", dependencies := [],
         status := TStatus.pending, result := none },
       { id := "t2", description := "", assigned_to := "w", dependencies := ["t1"],
         status := TStatus.pending, result := none }]).1 "t2" = some TStatus.failed ∧
    resultById (executePlan (fun _ => Except.error "boom")
      [{ id := "t1", description := "", assigned_to := "w", dependencies := [],
         status := TStatus.pending, result := none },
       { id := "t2", description := "", assigned_to := "w", dependencies := ["t1"],
         status := TStatus.pending, result := none }]).1 "t2" = some (some "blocked") ∧
    "t2" ∉ (executePlan (fun _ => Except.error "boom")
      [{ id := "t1", description := "", assigned_to := "w", dependencies := [],
         status := TStatus.pending, result := none },
       { id := "t2", description := "", assigned_to := "w", dependencies := ["t1"],
         status := TStatus.pending, result := none }]).2 := by
  have h := claim_C6_blocked_propagation (fun _ => Except.error "boom")
    [{ id := "t1", description := "", assigned_to := "w", dependencies := [],
       status := TStatus.pending, result := none },
     { id := "t2", description := "", assigned_to := "w", dependencies := ["t1"],
       status := TStatus.pending, result := none }]
    "t2" "t1" (by decide) (by decide)
    (DepChain.direct
      { id := "t2", description := "", assigned_to := "w", dependencies := ["t1"],
        status := TStatus.pending, result := none } "t1" (by decide) (by decide))
    (by decide)
  exact ⟨by decide, by decide, h.1, h.2.1, h.2.2⟩

theorem pcAux_fuel_irrel : ∀ (fuel fuel' : Nat) (inTh : Bool) (buf l : List Char),
    l.length ≤ fuel → l.length ≤ fuel' →
    pcAux fuel inTh buf l = pcAux fuel' inTh buf l := by
  intro fuel
  induction fuel with
  | zero =>
    intro fuel' inTh buf l h _
    have hl : l = [] := List.eq_nil_of_length_eq_zero (Nat.le_zero.mp h)
    subst hl
    cases fuel' <;> rfl
  | succ n ih =>
    intro fuel' inTh buf l h h'
    cases l with
    | nil => cases fuel' <;> rfl
    | cons c rest =>
      cases fuel' with
      | zero => simp at h'
      | succ m =>
        have hn : rest.length ≤ n := by simpa using h
        have hm : rest.length ≤ m := by simpa using h'
        simp only [pcAux]
        by_cases h1 : c = '<' ∧ openTagChars.isPrefixOf rest
        · rw [if_pos h1, if_pos h1,
            ih m true [] (rest.drop 9) (by simp; omega) (by simp; omega)]
        · rw [if_neg h1, if_neg h1]
          by_cases h2 : c = '<' ∧ closeTagChars.isPrefixOf rest
          · rw [if_pos h2, if_pos h2,
              ih m false buf (rest.drop 10) (by simp; omega) (by simp; omega)]
          · rw [if_neg h2, if_neg h2]
            by_cases h3 : inTh = true
            · rw [if_pos h3, if_pos h3, ih m inTh (buf ++ [c]) rest hn hm]
            · rw [if_neg h3, if_neg h3, ih m inTh buf rest hn hm]

theorem pcAux_cons (fuel : Nat) (inTh : Bool) (buf : List Char) (c : Char)
    (rest : List Char) :
    pcAux (fuel + 1) inTh buf (c :: rest) =
      if c = '<' ∧ openTagChars.isPrefixOf rest then
        (thinkingHeaderChars ++ (pcAux fuel true [] (rest.drop 9)).1,
          (pcAux fuel true [] (rest.drop 9)).2)
      else if c = '<' ∧ closeTagChars.isPrefixOf rest then
        (']' :: '\n' :: (pcAux fuel false buf (rest.drop 10)).1,
          (pcAux fuel false buf (rest.drop 10)).2)
      else if inTh then
        ((if utf8Len (buf ++ [c]) % 3 = 0 then ['.'] else []) ++
          (pcAux fuel inTh (buf ++ [c]) rest).1, (pcAux fuel inTh (buf ++ [c]) rest).2)
      else
        (c :: (pcAux fuel inTh buf rest).1, (pcAux fuel inTh buf rest).2) := rfl

theorem pcRun_echo : ∀ (s0 ys buf : List Char), noTagB s0 ys = true →
    pcRun false buf (s0 ++ ys) =
      (s0 ++ (pcRun false buf ys).1, (pcRun false buf ys).2) := by
  intro s0
  induction s0 with
  | nil => intro ys buf _; simp
  | cons c s0' ih =>
    intro ys buf h
    simp only [noTagB, Bool.and_eq_true] at h
    have hrec := ih ys buf h.2
    show pcAux ((c :: (s0' ++ ys)).length) false buf (c :: (s0' ++ ys)) = _
    rw [List.length_cons, pcAux_cons]
    by_cases hc : c = '<'
    · have hops := h.1
      rw [if_pos hc, Bool.and_eq_true, Bool.not_eq_true', Bool.not_eq_true'] at hops
      rw [if_neg (by intro hh; have h3 := hh.2; rw [hops.1] at h3; simp at h3),
        if_neg (by intro hh; have h3 := hh.2; rw [hops.2] at h3; simp at h3),
        if_neg (by simp)]
      have e : pcAux ((s0' ++ ys).length) false buf (s0' ++ ys) =
          pcRun false buf (s0' ++ ys) := rfl
      rw [e, hrec]
      simp
    · rw [if_neg (fun hh => hc hh.1), if_neg (fun hh => hc hh.1), if_neg (by simp)]
      have e : pcAux ((s0' ++ ys).length) false buf (s0' ++ ys) =
          pcRun false buf (s0' ++ ys) := rfl
      rw [e, hrec]
      simp

theorem pcRun_dots : ∀ (t ys buf : List Char), noTagB t ys = true →
    pcRun true buf (t ++ ys) =
      (dotsRender buf t ++ (pcRun true (buf ++ t) ys).1,
        (pcRun true (buf ++ t) ys).2) := by
  intro t
  induction t with
  | nil => intro ys buf _; simp [dotsRender]
  | cons c t' ih =>
    intro ys buf h
    simp only [noTagB, Bool.and_eq_true] at h
    have hrec := ih ys (buf ++ [c]) h.2
    show pcAux ((c :: (t' ++ ys)).length) true buf (c :: (t' ++ ys)) = _
    rw [List.length_cons, pcAux_cons]
    by_cases hc : c = '<'
    · have hops := h.1
      rw [if_pos hc, Bool.and_eq_true, Bool.not_eq_true', Bool.not_eq_true'] at hops
      rw [if_neg (by intro hh; have h3 := hh.2; rw [hops.1] at h3; simp at h3),
        if_neg (by intro hh; have h3 := hh.2; rw [hops.2] at h3; simp at h3),
        if_pos rfl]
      have e : pcAux ((t' ++ ys).length) true (buf ++ [c]) (t' ++ ys) =
          pcRun true (buf ++ [c]) (t' ++ ys) := rfl
      rw [e, hrec]
      simp [dotsRender, List.append_assoc]
    · rw [if_neg (fun hh => hc hh.1), if_neg (fun hh => hc hh.1), if_pos rfl]
      have e : pcAux ((t' ++ ys).length) true (buf ++ [c]) (t' ++ ys) =
          pcRun true (buf ++ [c]) (t' ++ ys) := rfl
      rw [e, hrec]
      simp [dotsRender, List.append_assoc]


theorem pcRun_open (inTh : Bool) (buf ys : List Char) :
    pcRun inTh buf ('<' :: (openTagChars ++ ys)) =
      (thinkingHeaderChars ++ (pcRun true [] ys).1, (pcRun true [] ys).2) := by
  show pcAux (('<' :: (openTagChars ++ ys)).length) inTh buf _ = _
  rw [List.length_cons, pcAux_cons]
  rw [if_pos ⟨rfl, List.isPrefixOf_iff_prefix.mpr (List.prefix_append _ _)⟩]
  have hdrop : (openTagChars ++ ys).drop 9 = ys := by
    have h9 : openTagChars.length = 9 := rfl
    rw [← h9, List.drop_left]
  rw [hdrop, pcAux_fuel_irrel ((openTagChars ++ ys).length) ys.length true [] ys
    (by simp only [List.length_append]; omega) (Nat.le_refl _)]
  rfl

theorem pcRun_close (inTh : Bool) (buf ys : List Char) :
    pcRun inTh buf ('<' :: (closeTagChars ++ ys)) =
      (']' :: '\n' :: (pcRun false buf ys).1, (pcRun false buf ys).2) := by
  show pcAux (('<' :: (closeTagChars ++ ys)).length) inTh buf _ = _
  rw [List.length_cons, pcAux_cons]
  rw [if_neg (by
    intro hh
    have h2 := hh.2
    rw [show openTagChars.isPrefixOf (closeTagChars ++ ys) = false from rfl] at h2
    cases h2)]
  rw [if_pos ⟨rfl, List.isPrefixOf_iff_prefix.mpr (List.prefix_append _ _)⟩]
  have hdrop : (closeTagChars ++ ys).drop 10 = ys := by
    have h10 : closeTagChars.length = 10 := rfl
    rw [← h10, List.drop_left]
  rw [hdrop, pcAux_fuel_irrel ((closeTagChars ++ ys).length) ys.length false buf ys
    (by simp only [List.length_append]; omega) (Nat.le_refl _)]
  rfl

theorem pcRun_dots_nil (t buf : List Char) (h : noTagB t [] = true) :
    pcRun true buf t = (dotsRender buf t, true, buf ++ t) := by
  have hd := pcRun_dots t [] buf h
  have hnil : pcRun true (buf ++ t) [] = ([], true, buf ++ t) := rfl
  rw [hnil] at hd
  simpa using hd

theorem pcRun_gen : ∀ (regs : List (List Char × List Char)) (tl : Option (List Char))
    (s0 buf : List Char),
    noTagB s0 (flatRegs regs tl) = true → goodRegsB regs tl = true →
    pcRun false buf (s0 ++ flatRegs regs tl) =
      (s0 ++ rendRegs regs tl, finalSt regs tl (false, buf)) := by
  intro regs
  induction regs with
  | nil =>
    intro tl s0 buf h0 hg
    cases tl with
    | none =>
      have h := pcRun_echo s0 (flatRegs [] none) buf h0
      have hnil : pcRun false buf (flatRegs [] none) = ([], false, buf) := rfl
      rw [hnil] at h
      simpa [rendRegs, finalSt] using h
    | some tcont =>
      have h := pcRun_echo s0 (flatRegs [] (some tcont)) buf h0
      have hfl : flatRegs [] (some tcont) = '<' :: (openTagChars ++ tcont) := rfl
      rw [hfl] at h
      rw [pcRun_open] at h
      have hg' : noTagB tcont [] = true := by simpa [goodRegsB] using hg
      rw [pcRun_dots_nil tcont [] hg'] at h
      rw [show flatRegs [] (some tcont) = '<' :: (openTagChars ++ tcont) from rfl]
      rw [h]
      simp [rendRegs, finalSt]
  | cons p rest ih =>
    intro tl s0 buf h0 hg
    obtain ⟨t, s⟩ := p
    simp only [goodRegsB, Bool.and_eq_true] at hg
    obtain ⟨hgt, hgs, hgrest⟩ := hg
    have hflat : flatRegs ((t, s) :: rest) tl =
        '<' :: (openTagChars ++ (t ++ ('<' :: (closeTagChars ++
          (s ++ flatRegs rest tl))))) := rfl
    rw [hflat] at h0 ⊢
    rw [pcRun_echo s0 _ buf h0, pcRun_open, pcRun_dots t _ [] hgt, List.nil_append,
      pcRun_close, ih tl s t hgs hgrest]
    simp [rendRegs, finalSt, List.append_assoc]

/-- Claim C10 (amended): for every tracker state and every chunk that
decomposes into plain text and thinking regions — every occurrence of
`<thinking>`/`</thinking>` in the chunk is one of its region delimiters,
where a region may continue from the previous chunk (tracker already
inside thinking), a trailing region may remain open at the chunk's end,
and a `'<'` that does not begin a tag is plain text —
`ThinkingTracker::process_chunk` emits no tag text and no character from
inside a thinking region: plain text is echoed unchanged, each region
renders as the `💭 [Thinking` header, one `.` each time the UTF-8 byte
length of the buffered region text reaches a multiple of three (a byte
count, equal to one per third character only for ASCII), and — when the
region closes — the `]` marker; the final state is inside thinking with
the open region's text as buffer exactly when a trailing region remains
open. -/
theorem claim_C10_thinking_filter :
    (∀ (regs : List (List Char × List Char)) (tl : Option (List Char))
        (s0 buf : List Char),
      noTagB s0 (flatRegs regs tl) = true → goodRegsB regs tl = true →
      (ThinkingTracker.mk false buf).process_chunk (String.mk (s0 ++ flatRegs regs tl)) =
        (String.mk (s0 ++ rendRegs regs tl),
          ThinkingTracker.mk (finalSt regs tl (false, buf)).1
            (finalSt regs tl (false, buf)).2)) ∧
    (∀ (regs : List (List Char × List Char)) (tl : Option (List Char))
        (t0 s0 buf : List Char),
      noTagB t0 ('<' :: (closeTagChars ++ (s0 ++ flatRegs regs tl))) = true →
      noTagB s0 (flatRegs regs tl) = true → goodRegsB regs tl = true →
      (ThinkingTracker.mk true buf).process_chunk
          (String.mk (t0 ++ ('<' :: (closeTagChars ++ (s0 ++ flatRegs regs tl))))) =
        (String.mk (dotsRender buf t0 ++ (']' :: '\n' :: (s0 ++ rendRegs regs tl))),
          ThinkingTracker.mk (finalSt regs tl (false, buf ++ t0)).1
            (finalSt regs tl (false, buf ++ t0)).2)) ∧
    (∀ (t0 buf : List Char), noTagB t0 [] = true →
      (ThinkingTracker.mk true buf).process_chunk (String.mk t0) =
        (String.mk (dotsRender buf t0), ThinkingTracker.mk true (buf ++ t0))) := by
  refine ⟨?_, ?_, ?_⟩
  · intro regs tl s0 buf h0 hg
    have h := pcRun_gen regs tl s0 buf h0 hg
    show (String.mk (pcRun false buf (s0 ++ flatRegs regs tl)).1,
        ({ in_thinking := (pcRun false buf (s0 ++ flatRegs regs tl)).2.1,
           thinking_buffer := (pcRun false buf (s0 ++ flatRegs regs tl)).2.2 } :
          ThinkingTracker)) = _
    rw [h]
  · intro regs tl t0 s0 buf ht0 h0 hg
    have hd := pcRun_dots t0 ('<' :: (closeTagChars ++ (s0 ++ flatRegs regs tl))) buf ht0
    rw [pcRun_close, pcRun_gen regs tl s0 (buf ++ t0) h0 hg] at hd
    show (String.mk (pcRun true buf
          (t0 ++ ('<' :: (closeTagChars ++ (s0 ++ flatRegs regs tl))))).1,
        ({ in_thinking := (pcRun true buf
             (t0 ++ ('<' :: (closeTagChars ++ (s0 ++ flatRegs regs tl))))).2.1,
           thinking_buffer := (pcRun true buf
             (t0 ++ ('<' :: (closeTagChars ++ (s0 ++ flatRegs regs tl))))).2.2 } :
          ThinkingTracker)) = _
    rw [hd]
  · intro t0 buf h
    have hd := pcRun_dots_nil t0 buf h
    show (String.mk (pcRun true buf t0).1,
        ({ in_thinking := (pcRun true buf t0).2.1,
           thinking_buffer := (pcRun true buf t0).2.2 } : ThinkingTracker)) = _
    rw [hd]

theorem claim_C10_witness :
    noTagB [] (flatRegs [("abcdef".toList, [])] none) = true ∧
    goodRegsB [("abcdef".toList, [])] none = true ∧
    (ThinkingTracker.new.process_chunk "<thinking>abcdef</thinking>").1 =
      "\n💭 [Thinking..]\n" := by
  refine ⟨by decide, by decide, ?_⟩
  have h := claim_C10_thinking_filter.1 [("abcdef".toList, [])] none [] []
    (by decide) (by decide)
  have e1 : String.mk ([] ++ flatRegs [("abcdef".toList, [])] none) =
      "<thinking>abcdef</thinking>" := by decide
  have e2 : ThinkingTracker.new = ThinkingTracker.mk false [] := rfl
  rw [← e2, e1] at h
  rw [h]
  decide


/-- Claim C10 counterexample: the `.` progress dots count buffered BYTES,
not characters (`thinking_buffer.len()` is a UTF-8 byte count): on the
fresh-tracker chunk `<thinking>aé</thinking>` only two characters are
buffered, so the claim's one-dot-per-third-character reading predicts the
output `"\n💭 [Thinking]\n"` with no dot, but the code emits a dot when
the byte length reaches 3 (`a` is 1 byte, `é` 2 bytes), producing
`"\n💭 [Thinking.]\n"`. -/
theorem claim_C10_counterexample :
    (ThinkingTracker.new.process_chunk "<thinking>aé</thinking>").1 =
      "\n💭 [Thinking.]\n" ∧
    "\n💭 [Thinking.]\n" ≠ "\n💭 [Thinking]\n" := ⟨by decide, by decide⟩
